import Mathlib

/-!
# bingovis: binary file visualiser along a Hilbert curve

A shallow embedding of `main.go` and a verification of its specification.

Modelling conventions.

* Go `int` is the 64-bit two's-complement integer.  `GetBlockInt64` embeds `GetBlock`
  with that arithmetic: the product `blockindex * blocksize` and the sum
  `offset + blocksize` wrap (`wrapInt64`), a slice expression whose bounds are out of
  range panics, and so does a `make` the platform cannot satisfy; it returns an `Option`,
  `none` being the panic.  Where every value stays in `[0, 2 ^ 63)` an `int` is a natural
  number: `GetBlock` is `GetBlockInt64` on the arguments with
  `blockindex * blocksize + blocksize < 2 ^ 63` (`GetBlockInt64_eq_GetBlock`), among them
  every call `AnalyzeData` makes on a buffer shorter than `2 ^ 53` bytes
  (`GetBlockInt64_in_AnalyzeData`).  In `HilbertMapD2XY` the running coordinates stay
  below the scale `s` (`hilbertCurve_lt`), so the subtractions `s - 1 - x` never go below
  zero and, for `n` a power of two, no value exceeds `n`.
* A `[]byte` is a `List Byte` with `Byte = Fin 256`.
* A finite `float64` is the rational number it denotes.  Every arithmetic result is
  rounded to the nearest number with a 53-bit significand, ties to even
  (`float64Round`), as IEEE-754 binary64 does in its normal range.  Magnitudes in
  this program lie between `2 ^ (-63)` and `2 ^ 64`, well inside that range.
* A run-time panic and the error return of `AnalyzeData` are the two constructors
  of `Failure`; fallible functions return `Except Failure _`.
* `image.RGBA` is a rectangle of pixels addressed by `(x, y)`.
* The file system is explicit state: the content of the files that exist, the paths at
  which the process is able to create a file, and the files it is able to read.  The
  bytes `png.Encode` writes for an image are a parameter.
-/

namespace Bingovis

/-! ## Data model -/

/-- One byte of the input file. -/
abbrev Byte := Fin 256

/-- The ways a call can fail: the error `AnalyzeData` returns for an empty file, and
the run-time panic of an integer division by zero. -/
inductive Failure where
  | emptyFile
  | divideByZero
  deriving DecidableEq

/-- A `color.RGBA` value: four 8-bit channels. -/
structure RGBAColor where
  R : Nat
  G : Nat
  B : Nat
  A : Nat
  deriving DecidableEq

/-- An `image.RGBA` with bounds `image.Rect(0, 0, width, height)`. -/
structure RGBAImage where
  width : Nat
  height : Nat
  pixel : Nat → Nat → RGBAColor

/-- `image.NewRGBA(image.Rect(0, 0, w, h))`: every pixel is the zero colour. -/
def NewRGBA (w h : Nat) : RGBAImage :=
  { width := w, height := h, pixel := fun _ _ => ⟨0, 0, 0, 0⟩ }

/-- `img.Set(x, y, c)`: a point outside the bounds is ignored. -/
def RGBAImage.Set (img : RGBAImage) (x y : Nat) (c : RGBAColor) : RGBAImage :=
  if x < img.width ∧ y < img.height then
    { img with pixel := fun x' y' => if x' = x ∧ y' = y then c else img.pixel x' y' }
  else img

/-- `img.RGBAAt(x, y)`: the zero colour outside the bounds. -/
def RGBAImage.At (img : RGBAImage) (x y : Nat) : RGBAColor :=
  if x < img.width ∧ y < img.height then img.pixel x y else ⟨0, 0, 0, 0⟩

/-- The file system as explicit state.  `files` is the content of every path that exists;
a path stands for the file it names.
`creatable` tells, for a path that does not exist, whether the process is able to create a
file there: the name is not empty, the parent directory exists and is writable.
`readable` tells whether the process is able to read the file at an existing path. -/
structure FileSystem where
  files : String → Option (List Byte)
  creatable : String → Bool
  readable : String → Bool

/-- The errors `GenerateBinVis` returns: from `os.OpenFile`, the exclusive creation of an
output path that already exists, or any other failure to create the file; from
`ioutil.ReadFile`, an input path that does not exist, or any other failure to read it; and a
failure of `AnalyzeData`. -/
inductive RunError where
  | outputExists
  | openFailed
  | inputMissing
  | readFailed
  | analyze (f : Failure)
  deriving DecidableEq

/-! ## float64 arithmetic -/

/-- Round a rational to the nearest integer, ties to the even one. -/
def roundHalfEven (q : ℚ) : ℤ :=
  if q - ⌊q⌋ < 1 / 2 then ⌊q⌋
  else if 1 / 2 < q - ⌊q⌋ then ⌊q⌋ + 1
  else if ⌊q⌋ % 2 = 0 then ⌊q⌋ else ⌊q⌋ + 1

/-- The float64 nearest to `q`: with `2 ^ e ≤ |q| < 2 ^ (e + 1)` the significand
`q / 2 ^ (e - 52)` is rounded to an integer, ties to even. -/
def float64Round (q : ℚ) : ℚ :=
  if q = 0 then 0
  else (roundHalfEven (q / 2 ^ (Int.log 2 |q| - 52)) : ℚ) * 2 ^ (Int.log 2 |q| - 52)

/-- The conversion `float64(n)` of a non-negative `int`. -/
def float64 (n : Nat) : ℚ := float64Round n

/-- The float64 quotient `a / b`. -/
def float64Div (a b : ℚ) : ℚ := float64Round (a / b)

/-- The float64 product `a * b`. -/
def float64Mul (a b : ℚ) : ℚ := float64Round (a * b)

/-- The platform-dependent part of float64 arithmetic.  `log2Inexact` is the value
`math.Log2` returns on an argument that is not a power of two (there Go evaluates
`Log(frac)*(1/Ln2) + float64(exp)`, an approximation).  `fusedMulAdd` tells whether the
compiler fuses `e - p*l` into one rounding, which the Go specification permits. -/
structure MathEnv where
  log2Inexact : ℚ → ℚ
  fusedMulAdd : Bool

/-- The statement `entropy -= p * l` in float64. -/
def float64SubMul (env : MathEnv) (entropy p l : ℚ) : ℚ :=
  if env.fusedMulAdd then float64Round (entropy - p * l)
  else float64Round (entropy - float64Round (p * l))

/-- `math.Pow(x, y)` for `x` a power of two and `y` a non-negative integer, the only
calls the program makes.  Go multiplies the `Frexp` significands (all equal to one
half here) and adds the exponents, so the result is exact. -/
def mathPow (x : ℚ) (y : Nat) : ℚ := x ^ y

/-- `math.Log2(x)` for `x > 0`: Go returns the exponent exactly when `x` is a power
of two, and an approximation otherwise. -/
def mathLog2 (env : MathEnv) (x : ℚ) : ℚ :=
  if x = 2 ^ Int.log 2 x then (Int.log 2 x : ℚ) else env.log2Inexact x

/-- `math.Sqrt(v)`: the correctly rounded square root.  With
`2 ^ h ≤ sqrt v < 2 ^ (h + 1)` and `u = 2 ^ (h - 52)`, the significand `sqrt (v / u²)`
is rounded to the nearest integer, ties to even. -/
def mathSqrt (v : ℚ) : ℚ :=
  if v ≤ 0 then 0
  else
    let u : ℚ := 2 ^ (Int.log 2 v / 2 - 52)
    let w : ℚ := v / (u * u)
    let r : Nat := Nat.sqrt ⌊w⌋₊
    let c : ℚ := r * r + r + 1 / 4
    let m : Nat := if w < c then r else if c < w then r + 1 else if r % 2 = 0 then r else r + 1
    m * u

/-- The conversion `int(f)` of a non-negative float64: the fraction is discarded. -/
def intOfFloat64 (q : ℚ) : Nat := ⌊q⌋₊

/-- The conversion `uint8(f)` of a non-negative float64: the fraction is discarded
and the value is reduced to eight bits. -/
def uint8OfFloat64 (q : ℚ) : Nat := ⌊q⌋₊ % 256

/-! ## The functions of `main.go` -/

/-- The body of the loop of `HilbertMapD2XY`: from the scale `s`, the running
coordinates and the remaining distance `t`, the coordinates after one iteration. -/
def hilbertStep (s x y t : Nat) : Nat × Nat :=
  let rx := 1 &&& (t / 2)
  let ry := 1 &&& (t ^^^ rx)
  let xy : Nat × Nat :=
    if ry = 0 then
      let xy1 : Nat × Nat := if rx = 1 then (s - 1 - x, s - 1 - y) else (x, y)
      (xy1.2, xy1.1)
    else (x, y)
  (xy.1 + s * rx, xy.2 + s * ry)

/-- The loop `for s := 1; s < n; s *= 2` of `HilbertMapD2XY`, entered at scale `s`. -/
def hilbertLoop (n s x y t : Nat) (hs : 0 < s) : Nat × Nat :=
  if h : s < n then
    let p := hilbertStep s x y t
    hilbertLoop n (s * 2) p.1 p.2 (t / 4) (by omega)
  else (x, y)
termination_by n - s
decreasing_by omega

/-- `HilbertMapD2XY(n, d)`. -/
def HilbertMapD2XY (n d : Nat) : Nat × Nat := hilbertLoop n 1 0 0 d (by decide)

/-- The loop `for y := 0; ; y++` of `GetBlockCount`, entered at `y`. -/
def getBlockCountLoop (x : ℚ) (y : Nat) : Nat :=
  if mathPow (mathPow 2 y) 2 > x then intOfFloat64 (mathPow (mathPow 2 y) 2)
  else getBlockCountLoop x (y + 1)
termination_by ⌈x⌉₊ - y
decreasing_by
  rename_i h
  have h1 : ((2 : ℚ) ^ y) ^ 2 ≤ x := not_lt.mp h
  have h2 : (y : ℚ) < 2 ^ y := by exact_mod_cast Nat.lt_two_pow y
  have h3 : (1 : ℚ) ≤ 2 ^ y := one_le_pow₀ (by norm_num)
  have h4 : (2 : ℚ) ^ y ≤ ((2 : ℚ) ^ y) ^ 2 := by nlinarith
  have h5 : (y : ℚ) < (⌈x⌉₊ : ℚ) := lt_of_lt_of_le (by linarith) (Nat.le_ceil x)
  have h6 : y < ⌈x⌉₊ := by exact_mod_cast h5
  omega

/-- `GetBlockCount(filelen, blocklen)`. -/
def GetBlockCount (filelen blocklen : Nat) : Nat :=
  getBlockCountLoop (float64Div (float64 filelen) (float64 blocklen)) 0

/-- `GetBlock(data, blockindex, blocksize)` on natural numbers: what the code computes
when its `int` arithmetic does not wrap, that is, when
`blockindex * blocksize + blocksize < 2 ^ 63`, and the zero block can be allocated
(`GetBlockInt64_eq_GetBlock`). -/
def GetBlock (data : List Byte) (blockindex blocksize : Nat) : List Byte :=
  let datalen := data.length
  let offset := blockindex * blocksize
  if offset ≥ datalen then List.replicate blocksize 0
  else if offset + blocksize ≥ datalen then data.drop offset
  else (data.take (offset + blocksize)).drop offset

/-- The value a 64-bit `int` holds after an arithmetic operation whose exact result is `z`:
the result wraps around into `[-2 ^ 63, 2 ^ 63)`. -/
def wrapInt64 (z : Int) : Int := (z + 2 ^ 63) % 2 ^ 64 - 2 ^ 63

/-- `GetBlock(data, blockindex, blocksize)` with the 64-bit `int` of Go; `none` is a
run-time panic.  `offset := blockindex * blocksize` and `offset + blocksize` wrap.
`make([]byte, blocksize)` panics on a negative length and on a length above `maxAlloc`,
the largest allocation the platform grants (the Go runtime refuses more than `2 ^ 48`
bytes on 64-bit Linux, and the memory at hand may allow less); `data[offset:]` panics
unless `0 ≤ offset ≤ len(data)`; `data[offset : offset+blocksize]` panics unless
`0 ≤ offset ≤ offset+blocksize ≤ cap(data)`.  In the second branch `offset < len(data)` is
known, in the third `offset + blocksize < len(data)`. -/
def GetBlockInt64 (maxAlloc : Nat) (data : List Byte) (blockindex blocksize : Int) :
    Option (List Byte) :=
  let datalen : Int := data.length
  let offset := wrapInt64 (blockindex * blocksize)
  if offset ≥ datalen then
    if blocksize < 0 ∨ (maxAlloc : Int) < blocksize then none
    else some (List.replicate blocksize.toNat 0)
  else if wrapInt64 (offset + blocksize) ≥ datalen then
    if offset < 0 then none else some (data.drop offset.toNat)
  else
    if offset < 0 ∨ wrapInt64 (offset + blocksize) < offset then none
    else some ((data.take (wrapInt64 (offset + blocksize)).toNat).drop offset.toNat)

/-- `GetAverage(block)`: the division panics on an empty block. -/
def GetAverage (block : List Byte) : Except Failure Nat :=
  let sum := block.foldl (fun sum v => sum + v.val) 0
  if block.length = 0 then Except.error Failure.divideByZero
  else Except.ok (sum / block.length % 256)

/-- `GetEntropy(block)`. -/
def GetEntropy (env : MathEnv) (block : List Byte) : Nat :=
  let observations : Nat → Nat :=
    block.foldl (fun obs v => Function.update obs v.val (obs v.val + 1)) (fun _ => 0)
  let entropy : ℚ :=
    (List.range 256).foldl
      (fun entropy i =>
        let probability := float64Div (float64 (observations i)) (float64 block.length)
        if probability > 0 then float64SubMul env entropy probability (mathLog2 env probability)
        else entropy)
      0
  uint8OfFloat64 (float64Mul entropy 32)

/-- The side length `int(math.Sqrt(float64(blockcount)))` computed by `AnalyzeData`. -/
def sideLength (blockcount : Nat) : Nat := intOfFloat64 (mathSqrt (float64 blockcount))

/-- The loop `for i := 0; i < blockcount; i++` of `AnalyzeData`, entered at `i`. -/
def analyzeLoop (env : MathEnv) (data : List Byte) (blocksize blockcount sidelen : Nat)
    (i : Nat) (img : RGBAImage) : Except Failure RGBAImage :=
  if i < blockcount then
    let block := GetBlock data i blocksize
    let red := GetEntropy env block
    match GetAverage block with
    | Except.error e => Except.error e
    | Except.ok green =>
      let blue := 0
      let p := HilbertMapD2XY sidelen i
      analyzeLoop env data blocksize blockcount sidelen (i + 1)
        (img.Set p.1 p.2 ⟨red, green, blue, 255⟩)
  else Except.ok img
termination_by blockcount - i

/-- `AnalyzeData(data)`. -/
def AnalyzeData (env : MathEnv) (data : List Byte) : Except Failure RGBAImage :=
  let datalen := data.length
  if datalen = 0 then Except.error Failure.emptyFile
  else
    let blocksize := 16
    let blockcount := GetBlockCount datalen blocksize
    let sidelen := sideLength blockcount
    let img := NewRGBA sidelen sidelen
    analyzeLoop env data blocksize blockcount sidelen 0 img

/-- `os.OpenFile(name, os.O_WRONLY|os.O_CREATE|os.O_EXCL, 0600)`: fails when the path
exists, fails when the file cannot be created, and otherwise creates an empty file, which
its owner may read. -/
def osOpenFileExcl (fs : FileSystem) (name : String) : Except RunError FileSystem :=
  match fs.files name with
  | some _ => Except.error RunError.outputExists
  | none =>
    if fs.creatable name then
      Except.ok
        { fs with
          files := Function.update fs.files name (some [])
          readable := Function.update fs.readable name true }
    else Except.error RunError.openFailed

/-- `ioutil.ReadFile(name)`: the content of the file, or an error when the path does not
exist or the file cannot be read. -/
def ioutilReadFile (fs : FileSystem) (name : String) : Except RunError (List Byte) :=
  match fs.files name with
  | none => Except.error RunError.inputMissing
  | some data => if fs.readable name then Except.ok data else Except.error RunError.readFailed

/-- `GenerateBinVis(inputfile, outputfile)` on the file system `fs`: the file system
afterwards and the error returned, if any.  `os.OpenFile` runs first and its error is
returned before anything else is done; `ioutil.ReadFile` then reads the input;
`png.Encode` writes the bytes `pngEncode img` to the created file, and its own error is
discarded.  No path of the function removes the created file. -/
def GenerateBinVis (env : MathEnv) (pngEncode : RGBAImage → List Byte) (fs : FileSystem)
    (inputfile outputfile : String) : FileSystem × Option RunError :=
  match osOpenFileExcl fs outputfile with
  | Except.error e => (fs, some e)
  | Except.ok fs1 =>
    match ioutilReadFile fs1 inputfile with
    | Except.error e => (fs1, some e)
    | Except.ok data =>
      match AnalyzeData env data with
      | Except.error e => (fs1, some (RunError.analyze e))
      | Except.ok img =>
        ({ fs1 with files := Function.update fs1.files outputfile (some (pngEncode img)) }, none)

/-! ## Auxiliary definitions for the proofs -/

/-- The loop body of `HilbertMapD2XY` run `m` times. -/
def hilbertRun : Nat → Nat → Nat → Nat → Nat → Nat × Nat
  | 0, _, x, y, _ => (x, y)
  | m + 1, s, x, y, t =>
    hilbertRun m (s * 2) (hilbertStep s x y t).1 (hilbertStep s x y t).2 (t / 4)

/-- The point at distance `d` on the curve of order `2 ^ k`. -/
def hilbertCurve (k d : Nat) : Nat × Nat := hilbertRun k 1 0 0 d

/-- Two grid cells that differ by one in one coordinate and agree in the other. -/
def gridAdjacent (p q : Nat × Nat) : Prop :=
  (p.1 = q.1 ∧ (p.2 + 1 = q.2 ∨ q.2 + 1 = p.2)) ∨
  (p.2 = q.2 ∧ (p.1 + 1 = q.1 ∨ q.1 + 1 = p.1))

/-- The colour `AnalyzeData` gives to block `i`. -/
def blockColor (env : MathEnv) (data : List Byte) (i : Nat) : RGBAColor :=
  ⟨GetEntropy env (GetBlock data i 16),
    (match GetAverage (GetBlock data i 16) with
      | Except.ok g => g
      | Except.error _ => 0),
    0, 255⟩

/-- The value of the variable `entropy` of `GetEntropy` when its loop ends. -/
def blockEntropy (env : MathEnv) (block : List Byte) : ℚ :=
  let observations : Nat → Nat :=
    block.foldl (fun obs v => Function.update obs v.val (obs v.val + 1)) (fun _ => 0)
  (List.range 256).foldl
    (fun entropy i =>
      let probability := float64Div (float64 (observations i)) (float64 block.length)
      if probability > 0 then float64SubMul env entropy probability (mathLog2 env probability)
      else entropy)
    0

/-- A file system that holds one file, the readable empty file `in`, and in which a file can
be created under every name but the empty one. -/
def emptyInputFileSystem : FileSystem :=
  { files := fun p => if p = "in" then some [] else none
    creatable := fun p => decide (p ≠ "")
    readable := fun _ => true }

/-- The sum of the byte values of a block. -/
def byteSum (block : List Byte) : Nat := (block.map (fun v => v.val)).sum

/-- The blocks of the indices `0, …, n - 1`, concatenated. -/
def blocksConcat (data : List Byte) (blocksize n : Nat) : List Byte :=
  (List.range n).flatMap (fun i => GetBlock data i blocksize)

/-! ## The Hilbert mapper -/

/-- The four cases of the loop body, by the base-4 digit `t % 4` of the distance. -/
theorem hilbertStep_cases (s x y t : Nat) :
    (t % 4 = 0 ∧ hilbertStep s x y t = (y, x)) ∨
    (t % 4 = 1 ∧ hilbertStep s x y t = (x, y + s)) ∨
    (t % 4 = 2 ∧ hilbertStep s x y t = (x + s, y + s)) ∨
    (t % 4 = 3 ∧ hilbertStep s x y t = (s - 1 - y + s, s - 1 - x)) := by
  have h4 : t % 4 < 4 := Nat.mod_lt _ (by decide)
  have hrx : 1 &&& (t / 2) = (t / 2) % 2 := Nat.one_and_eq_mod_two _
  have hry : ∀ r, 1 &&& (t ^^^ r) = (t + r) % 2 := fun r => by
    rw [Nat.one_and_eq_mod_two, Nat.xor_mod_two_eq]
  unfold hilbertStep
  simp only [hrx, hry]
  rcases (by omega : t % 4 = 0 ∨ t % 4 = 1 ∨ t % 4 = 2 ∨ t % 4 = 3) with h | h | h | h
  · have h1 : t / 2 % 2 = 0 := by omega
    have h2 : t % 2 = 0 := by omega
    simp [h, h1, h2]
  · have h1 : t / 2 % 2 = 0 := by omega
    have h2 : t % 2 = 1 := by omega
    simp [h, h1, h2]
  · have h1 : t / 2 % 2 = 1 := by omega
    have h2 : (t + 1) % 2 = 1 := by omega
    simp [h, h1, h2]
  · have h1 : t / 2 % 2 = 1 := by omega
    have h2 : (t + 1) % 2 = 0 := by omega
    simp [h, h1, h2]

/-- From scale `2 ^ j` the loop for `n = 2 ^ (j + m)` runs its body exactly `m` times. -/
theorem hilbertLoop_eq_run (m : Nat) : ∀ (j x y t : Nat) (hs : 0 < 2 ^ j),
    hilbertLoop (2 ^ (j + m)) (2 ^ j) x y t hs = hilbertRun m (2 ^ j) x y t := by
  induction m with
  | zero =>
    intro j x y t hs
    rw [hilbertLoop]
    simp [hilbertRun]
  | succ m ih =>
    intro j x y t hs
    rw [hilbertLoop]
    have hlt : 2 ^ j < 2 ^ (j + (m + 1)) := Nat.pow_lt_pow_right (by decide) (by omega)
    have hpow : 2 ^ j * 2 = 2 ^ (j + 1) := by rw [pow_succ]
    have hexp : j + (m + 1) = (j + 1) + m := by omega
    simp only [hlt, dite_true, hilbertRun]
    simp only [hpow, hexp]
    exact ih (j + 1) _ _ _ _

/-- For `n = 2 ^ k` the function runs the loop body `k` times. -/
theorem HilbertMapD2XY_pow (k d : Nat) : HilbertMapD2XY (2 ^ k) d = hilbertCurve k d := by
  have h := hilbertLoop_eq_run k 0 0 0 d (by decide)
  simpa [HilbertMapD2XY, hilbertCurve] using h

/-- The last of `m + 1` iterations, split off. -/
theorem hilbertRun_succ (m : Nat) : ∀ (s x y t : Nat),
    hilbertRun (m + 1) s x y t =
      hilbertStep (s * 2 ^ m) (hilbertRun m s x y t).1 (hilbertRun m s x y t).2 (t / 4 ^ m) := by
  induction m with
  | zero => intro s x y t; simp [hilbertRun]
  | succ m ih =>
    intro s x y t
    rw [hilbertRun, ih]
    have h1 : s * 2 * 2 ^ m = s * 2 ^ (m + 1) := by rw [pow_succ]; ring
    have h2 : t / 4 / 4 ^ m = t / 4 ^ (m + 1) := by
      rw [Nat.div_div_eq_div_mul, pow_succ, Nat.mul_comm]
    rw [h1, h2]
    rfl

/-- The curve of order one is the single cell. -/
theorem hilbertCurve_zero (d : Nat) : hilbertCurve 0 d = (0, 0) := rfl

/-- The curve of order `2 ^ (k + 1)` is the curve of order `2 ^ k` placed in a quadrant. -/
theorem hilbertCurve_succ (k d : Nat) :
    hilbertCurve (k + 1) d =
      hilbertStep (2 ^ k) (hilbertCurve k d).1 (hilbertCurve k d).2 (d / 4 ^ k) := by
  unfold hilbertCurve
  rw [hilbertRun_succ, Nat.one_mul]

/-- The curve stays inside the grid. -/
theorem hilbertCurve_lt (k : Nat) : ∀ d : Nat,
    (hilbertCurve k d).1 < 2 ^ k ∧ (hilbertCurve k d).2 < 2 ^ k := by
  induction k with
  | zero => intro d; simp [hilbertCurve_zero]
  | succ k ih =>
    intro d
    obtain ⟨hx, hy⟩ := ih d
    rw [hilbertCurve_succ, pow_succ]
    rcases hilbertStep_cases (2 ^ k) (hilbertCurve k d).1 (hilbertCurve k d).2 (d / 4 ^ k)
      with ⟨-, h⟩ | ⟨-, h⟩ | ⟨-, h⟩ | ⟨-, h⟩ <;> rw [h] <;> constructor <;> simp only <;> omega

/-- Only the `k` lowest base-4 digits of the distance are read. -/
theorem hilbertCurve_mod (k : Nat) : ∀ d : Nat,
    hilbertCurve k d = hilbertCurve k (d % 4 ^ k) := by
  induction k with
  | zero => intro d; simp [hilbertCurve_zero]
  | succ k ih =>
    intro d
    have h1 : d % 4 ^ (k + 1) % 4 ^ k = d % 4 ^ k :=
      Nat.mod_mod_of_dvd d (Dvd.intro _ (pow_succ 4 k).symm)
    have h2 : d % 4 ^ (k + 1) / 4 ^ k = d / 4 ^ k % 4 := by
      rw [pow_succ, Nat.mod_mul_right_div_self]
    have h3 : hilbertCurve k (d % 4 ^ (k + 1)) = hilbertCurve k d := by
      rw [ih (d % 4 ^ (k + 1)), h1, ← ih d]
    have h4 : ∀ s x y t, hilbertStep s x y (t % 4) = hilbertStep s x y t := by
      intro s x y t
      rcases hilbertStep_cases s x y t with ⟨e, h⟩ | ⟨e, h⟩ | ⟨e, h⟩ | ⟨e, h⟩ <;>
      rcases hilbertStep_cases s x y (t % 4) with ⟨e', h'⟩ | ⟨e', h'⟩ | ⟨e', h'⟩ | ⟨e', h'⟩ <;>
      first
        | (exfalso; omega)
        | (rw [h, h'])
    rw [hilbertCurve_succ, hilbertCurve_succ, h3, h2, h4]

/-- The curve starts in the corner `(0, 0)`. -/
theorem hilbertCurve_start (k : Nat) : hilbertCurve k 0 = (0, 0) := by
  induction k with
  | zero => rfl
  | succ k ih =>
    rw [hilbertCurve_succ, ih]
    rcases hilbertStep_cases (2 ^ k) 0 0 (0 / 4 ^ k) with ⟨e, h⟩ | ⟨e, h⟩ | ⟨e, h⟩ | ⟨e, h⟩
    · simpa using h
    all_goals (simp at e)

/-- The curve ends in the corner `(2 ^ k - 1, 0)`. -/
theorem hilbertCurve_end (k : Nat) : hilbertCurve k (4 ^ k - 1) = (2 ^ k - 1, 0) := by
  induction k with
  | zero => rfl
  | succ k ih =>
    have hpos : 0 < 4 ^ k := Nat.pow_pos (by decide)
    have h2pos : 0 < 2 ^ k := Nat.pow_pos (by decide)
    have hdiv : (4 ^ (k + 1) - 1) / 4 ^ k = 3 := by
      rw [pow_succ]
      apply Nat.div_eq_of_lt_le <;> omega
    have hmod : (4 ^ (k + 1) - 1) % 4 ^ k = 4 ^ k - 1 := by
      have := Nat.div_add_mod (4 ^ (k + 1) - 1) (4 ^ k)
      rw [hdiv] at this
      rw [pow_succ] at this ⊢
      omega
    rw [hilbertCurve_succ, hilbertCurve_mod k, hmod, ih, hdiv]
    rcases hilbertStep_cases (2 ^ k) (2 ^ k - 1) 0 3 with ⟨e, h⟩ | ⟨e, h⟩ | ⟨e, h⟩ | ⟨e, h⟩
    · simp at e
    · simp at e
    · simp at e
    · rw [h, pow_succ]
      refine Prod.ext ?_ ?_ <;> dsimp only <;> omega

/-- The loop body is injective on the quadrant digit and the sub-cell. -/
theorem hilbertStep_inj (s x1 y1 x2 y2 t1 t2 : Nat)
    (hx1 : x1 < s) (hy1 : y1 < s) (hx2 : x2 < s) (hy2 : y2 < s)
    (h : hilbertStep s x1 y1 t1 = hilbertStep s x2 y2 t2) :
    t1 % 4 = t2 % 4 ∧ x1 = x2 ∧ y1 = y2 := by
  rcases hilbertStep_cases s x1 y1 t1 with ⟨e, h1⟩ | ⟨e, h1⟩ | ⟨e, h1⟩ | ⟨e, h1⟩ <;>
  rcases hilbertStep_cases s x2 y2 t2 with ⟨e', h2⟩ | ⟨e', h2⟩ | ⟨e', h2⟩ | ⟨e', h2⟩ <;>
  rw [h1, h2] at h <;>
  simp only [Prod.mk.injEq] at h <;>
  omega

/-- Every cell of the doubled grid is reached by the loop body. -/
theorem hilbertStep_surj (s x y : Nat) (hx : x < s * 2) (hy : y < s * 2) :
    ∃ q px py, q < 4 ∧ px < s ∧ py < s ∧ hilbertStep s px py q = (x, y) := by
  by_cases h1 : x < s <;> by_cases h2 : y < s
  · refine ⟨0, y, x, by decide, h2, h1, ?_⟩
    rcases hilbertStep_cases s y x 0 with ⟨e, h⟩ | ⟨e, h⟩ | ⟨e, h⟩ | ⟨e, h⟩
    · exact h
    all_goals (simp at e)
  · refine ⟨1, x, y - s, by decide, h1, ?_, ?_⟩
    · omega
    rcases hilbertStep_cases s x (y - s) 1 with ⟨e, h⟩ | ⟨e, h⟩ | ⟨e, h⟩ | ⟨e, h⟩
    · simp at e
    · rw [h]; refine Prod.ext rfl ?_; dsimp only; omega
    all_goals (simp at e)
  · refine ⟨3, s - 1 - y, s * 2 - 1 - x, by decide, ?_, ?_, ?_⟩
    · omega
    · omega
    rcases hilbertStep_cases s (s - 1 - y) (s * 2 - 1 - x) 3 with
      ⟨e, h⟩ | ⟨e, h⟩ | ⟨e, h⟩ | ⟨e, h⟩
    · simp at e
    · simp at e
    · simp at e
    · rw [h]; refine Prod.ext ?_ ?_ <;> dsimp only <;> omega
  · refine ⟨2, x - s, y - s, by decide, ?_, ?_, ?_⟩
    · omega
    · omega
    rcases hilbertStep_cases s (x - s) (y - s) 2 with ⟨e, h⟩ | ⟨e, h⟩ | ⟨e, h⟩ | ⟨e, h⟩
    · simp at e
    · simp at e
    · rw [h]; refine Prod.ext ?_ ?_ <;> dsimp only <;> omega
    · simp at e

/-- Within one quadrant the loop body maps adjacent cells to adjacent cells. -/
theorem hilbertStep_adjacent (s x1 y1 x2 y2 t : Nat)
    (hx1 : x1 < s) (hy1 : y1 < s) (hx2 : x2 < s) (hy2 : y2 < s)
    (h : gridAdjacent (x1, y1) (x2, y2)) :
    gridAdjacent (hilbertStep s x1 y1 t) (hilbertStep s x2 y2 t) := by
  unfold gridAdjacent at h ⊢
  simp only at h
  rcases hilbertStep_cases s x1 y1 t with ⟨e, h1⟩ | ⟨e, h1⟩ | ⟨e, h1⟩ | ⟨e, h1⟩ <;>
  rcases hilbertStep_cases s x2 y2 t with ⟨e', h2⟩ | ⟨e', h2⟩ | ⟨e', h2⟩ | ⟨e', h2⟩ <;>
  first
    | (exfalso; omega)
    | (rw [h1, h2]; dsimp only; omega)

/-- The last cell of a quadrant is adjacent to the first cell of the next one. -/
theorem hilbertStep_seam (s q : Nat) (hs : 0 < s) (hq : q + 1 < 4) :
    gridAdjacent (hilbertStep s (s - 1) 0 q) (hilbertStep s 0 0 (q + 1)) := by
  unfold gridAdjacent
  rcases hilbertStep_cases s (s - 1) 0 q with ⟨e, h1⟩ | ⟨e, h1⟩ | ⟨e, h1⟩ | ⟨e, h1⟩ <;>
  rcases hilbertStep_cases s 0 0 (q + 1) with ⟨e', h2⟩ | ⟨e', h2⟩ | ⟨e', h2⟩ | ⟨e', h2⟩ <;>
  first
    | (exfalso; omega)
    | (rw [h1, h2]; dsimp only; omega)

/-- Distinct distances give distinct cells. -/
theorem hilbertCurve_inj (k : Nat) : ∀ d1 d2 : Nat, d1 < 4 ^ k → d2 < 4 ^ k →
    hilbertCurve k d1 = hilbertCurve k d2 → d1 = d2 := by
  induction k with
  | zero => intro d1 d2 h1 h2 _; simp at h1 h2; omega
  | succ k ih =>
    intro d1 d2 h1 h2 h
    have hpos : 0 < 4 ^ k := Nat.pow_pos (by decide)
    rw [hilbertCurve_succ, hilbertCurve_succ] at h
    obtain ⟨a1, b1⟩ := hilbertCurve_lt k d1
    obtain ⟨a2, b2⟩ := hilbertCurve_lt k d2
    obtain ⟨hq, hx, hy⟩ := hilbertStep_inj _ _ _ _ _ _ _ a1 b1 a2 b2 h
    have hp : hilbertCurve k d1 = hilbertCurve k d2 := Prod.ext hx hy
    rw [hilbertCurve_mod k d1, hilbertCurve_mod k d2] at hp
    have hr := ih _ _ (Nat.mod_lt _ hpos) (Nat.mod_lt _ hpos) hp
    have hq1 : d1 / 4 ^ k < 4 := by
      rw [Nat.div_lt_iff_lt_mul hpos]; rw [pow_succ] at h1; omega
    have hq2 : d2 / 4 ^ k < 4 := by
      rw [Nat.div_lt_iff_lt_mul hpos]; rw [pow_succ] at h2; omega
    have hqq : d1 / 4 ^ k = d2 / 4 ^ k := by
      rw [Nat.mod_eq_of_lt hq1, Nat.mod_eq_of_lt hq2] at hq
      exact hq
    rw [← Nat.div_add_mod d1 (4 ^ k), ← Nat.div_add_mod d2 (4 ^ k), hqq, hr]

/-- Every cell is reached. -/
theorem hilbertCurve_surj (k : Nat) : ∀ x y : Nat, x < 2 ^ k → y < 2 ^ k →
    ∃ d, d < 4 ^ k ∧ hilbertCurve k d = (x, y) := by
  induction k with
  | zero =>
    intro x y hx hy
    refine ⟨0, by simp, ?_⟩
    simp at hx hy
    simp [hilbertCurve_zero, hx, hy]
  | succ k ih =>
    intro x y hx hy
    have hpos : 0 < 4 ^ k := Nat.pow_pos (by decide)
    rw [pow_succ] at hx hy
    obtain ⟨q, px, py, hq, hpx, hpy, hstep⟩ := hilbertStep_surj (2 ^ k) x y hx hy
    obtain ⟨r, hr, hcr⟩ := ih px py hpx hpy
    have hdm : (r + 4 ^ k * q) / 4 ^ k = q ∧ (r + 4 ^ k * q) % 4 ^ k = r :=
      (Nat.div_mod_unique hpos).2 ⟨rfl, hr⟩
    refine ⟨r + 4 ^ k * q, ?_, ?_⟩
    · rw [pow_succ]
      have : 4 ^ k * q ≤ 4 ^ k * 3 := Nat.mul_le_mul_left _ (by omega)
      omega
    · rw [hilbertCurve_succ, hilbertCurve_mod k, hdm.1, hdm.2, hcr]
      exact hstep

/-- Consecutive distances give adjacent cells. -/
theorem hilbertCurve_adjacent (k : Nat) : ∀ d : Nat, d + 1 < 4 ^ k →
    gridAdjacent (hilbertCurve k d) (hilbertCurve k (d + 1)) := by
  induction k with
  | zero => intro d h; simp at h
  | succ k ih =>
    intro d h
    have hpos : 0 < 4 ^ k := Nat.pow_pos (by decide)
    have h2pos : 0 < 2 ^ k := Nat.pow_pos (by decide)
    have hrlt : d % 4 ^ k < 4 ^ k := Nat.mod_lt _ hpos
    have hd := Nat.div_add_mod d (4 ^ k)
    rw [hilbertCurve_succ, hilbertCurve_succ]
    by_cases hcase : d % 4 ^ k + 1 < 4 ^ k
    · have hdm : (d + 1) / 4 ^ k = d / 4 ^ k ∧ (d + 1) % 4 ^ k = d % 4 ^ k + 1 :=
        (Nat.div_mod_unique hpos).2 ⟨by omega, hcase⟩
      have hadj := ih (d % 4 ^ k) hcase
      rw [← hdm.2, ← hilbertCurve_mod k d, ← hilbertCurve_mod k (d + 1)] at hadj
      obtain ⟨a1, b1⟩ := hilbertCurve_lt k d
      obtain ⟨a2, b2⟩ := hilbertCurve_lt k (d + 1)
      rw [hdm.1]
      exact hilbertStep_adjacent _ _ _ _ _ _ a1 b1 a2 b2 hadj
    · have hreq : d % 4 ^ k = 4 ^ k - 1 := by omega
      have hdm : (d + 1) / 4 ^ k = d / 4 ^ k + 1 ∧ (d + 1) % 4 ^ k = 0 :=
        (Nat.div_mod_unique hpos).2 ⟨by rw [Nat.mul_add]; omega, hpos⟩
      have hq : d / 4 ^ k + 1 < 4 := by
        rw [← hdm.1, Nat.div_lt_iff_lt_mul hpos]
        rw [pow_succ] at h
        omega
      rw [hilbertCurve_mod k d, hreq, hilbertCurve_end, hilbertCurve_mod k (d + 1), hdm.2,
        hilbertCurve_start, hdm.1]
      exact hilbertStep_seam _ _ h2pos hq

/-- Squaring a power of two gives the power of four. -/
theorem two_pow_mul_self (k : Nat) : 2 ^ k * 2 ^ k = 4 ^ k := by
  rw [← mul_pow]
  rfl

/-! ## The block extractor -/

/-- The three branches of `GetBlock`. -/
theorem GetBlock_cases (data : List Byte) (i blocksize : Nat) :
    (data.length ≤ i * blocksize ∧ GetBlock data i blocksize = List.replicate blocksize 0) ∨
    (i * blocksize < data.length ∧ data.length ≤ i * blocksize + blocksize ∧
      GetBlock data i blocksize = data.drop (i * blocksize)) ∨
    (i * blocksize + blocksize < data.length ∧
      GetBlock data i blocksize = (data.take (i * blocksize + blocksize)).drop (i * blocksize)) := by
  unfold GetBlock
  by_cases h1 : i * blocksize ≥ data.length
  · left
    exact ⟨h1, by simp only [h1, if_true]⟩
  · by_cases h2 : i * blocksize + blocksize ≥ data.length
    · right; left
      exact ⟨by omega, h2, by simp only [h1, h2, if_true, if_false]⟩
    · right; right
      exact ⟨by omega, by simp only [h1, h2, if_false]⟩

/-- A block is never empty when the block size is positive. -/
theorem GetBlock_length_pos (data : List Byte) (i blocksize : Nat) (hb : 0 < blocksize) :
    0 < (GetBlock data i blocksize).length := by
  rcases GetBlock_cases data i blocksize with ⟨_, h⟩ | ⟨h1, _, h⟩ | ⟨h1, h⟩ <;> rw [h]
  · simpa using hb
  · rw [List.length_drop]; omega
  · rw [List.length_drop, List.length_take]; omega

/-! ## float64 arithmetic and the canvas sizer -/

/-- An integer rounds to itself. -/
theorem roundHalfEven_intCast (z : ℤ) : roundHalfEven (z : ℚ) = z := by
  unfold roundHalfEven
  simp

/-- Rounding never goes below the floor. -/
theorem roundHalfEven_ge_floor (q : ℚ) : ⌊q⌋ ≤ roundHalfEven q := by
  unfold roundHalfEven
  split_ifs <;> omega

/-- Rounding never goes above the floor plus one. -/
theorem roundHalfEven_le_floor_succ (q : ℚ) : roundHalfEven q ≤ ⌊q⌋ + 1 := by
  unfold roundHalfEven
  split_ifs <;> omega

/-- Rounding to an integer is monotone. -/
theorem roundHalfEven_mono {p q : ℚ} (h : p ≤ q) : roundHalfEven p ≤ roundHalfEven q := by
  have hf : ⌊p⌋ ≤ ⌊q⌋ := Int.floor_mono h
  rcases lt_or_eq_of_le hf with hlt | heq
  · calc roundHalfEven p ≤ ⌊p⌋ + 1 := roundHalfEven_le_floor_succ p
      _ ≤ ⌊q⌋ := hlt
      _ ≤ roundHalfEven q := roundHalfEven_ge_floor q
  · unfold roundHalfEven
    rw [heq]
    split_ifs <;> first | omega | (exfalso; linarith)

/-- Powers of two are positive. -/
theorem two_zpow_pos (e : ℤ) : (0 : ℚ) < 2 ^ e := zpow_pos (by norm_num) e

/-- The binary exponent brackets a positive rational. -/
theorem log_bounds {q : ℚ} (hq : 0 < q) :
    (2 : ℚ) ^ (Int.log 2 q) ≤ q ∧ q < (2 : ℚ) ^ (Int.log 2 q + 1) := by
  have h1 := Int.zpow_log_le_self (b := 2) (by decide) hq
  have h2 := Int.lt_zpow_succ_log_self (b := 2) (by decide) q
  simpa using And.intro h1 h2

/-- The scaled significand of a positive rational lies in `[2 ^ 52, 2 ^ 53)`. -/
theorem scaled_bounds {q : ℚ} (hq : 0 < q) :
    (2 : ℚ) ^ (52 : ℕ) ≤ q / 2 ^ (Int.log 2 q - 52) ∧
      q / 2 ^ (Int.log 2 q - 52) < (2 : ℚ) ^ (53 : ℕ) := by
  obtain ⟨h1, h2⟩ := log_bounds hq
  have hp := two_zpow_pos (Int.log 2 q - 52)
  have e1 : (2 : ℚ) ^ (Int.log 2 q) = 2 ^ (52 : ℕ) * 2 ^ (Int.log 2 q - 52) := by
    rw [← zpow_natCast, ← zpow_add₀ (by norm_num)]; congr 1; omega
  have e2 : (2 : ℚ) ^ (Int.log 2 q + 1) = 2 ^ (53 : ℕ) * 2 ^ (Int.log 2 q - 52) := by
    rw [← zpow_natCast, ← zpow_add₀ (by norm_num)]; congr 1; omega
  rw [e1] at h1
  rw [e2] at h2
  exact ⟨(le_div_iff₀ hp).2 h1, (div_lt_iff₀ hp).2 h2⟩

/-- The rounding of a positive rational, unfolded. -/
theorem float64Round_of_pos {q : ℚ} (hq : 0 < q) :
    float64Round q = (roundHalfEven (q / 2 ^ (Int.log 2 q - 52)) : ℚ) * 2 ^ (Int.log 2 q - 52) := by
  unfold float64Round
  rw [if_neg hq.ne', abs_of_pos hq]

/-- Zero is a float64. -/
theorem float64Round_zero : float64Round 0 = 0 := by simp [float64Round]

/-- Rounding to float64 is monotone on positive rationals. -/
theorem float64Round_mono_pos {p q : ℚ} (h₁ : 0 < p) (h : p ≤ q) :
    float64Round p ≤ float64Round q := by
  have h₂ : 0 < q := lt_of_lt_of_le h₁ h
  rw [float64Round_of_pos h₁, float64Round_of_pos h₂]
  have hlog : Int.log 2 p ≤ Int.log 2 q := Int.log_mono_right h₁ h
  obtain ⟨a1, b1⟩ := scaled_bounds h₁
  obtain ⟨a2, b2⟩ := scaled_bounds h₂
  rcases lt_or_eq_of_le hlog with hlt | heq
  · have u1 : roundHalfEven (p / 2 ^ (Int.log 2 p - 52)) ≤ 2 ^ 53 := by
      have := roundHalfEven_mono (le_of_lt b1)
      have e : ((2 : ℚ) ^ (53 : ℕ)) = (((2 : ℤ) ^ 53 : ℤ) : ℚ) := by norm_num
      rw [e, roundHalfEven_intCast] at this
      exact this
    have u2 : (2 : ℤ) ^ 52 ≤ roundHalfEven (q / 2 ^ (Int.log 2 q - 52)) := by
      have := roundHalfEven_mono a2
      have e : ((2 : ℚ) ^ (52 : ℕ)) = (((2 : ℤ) ^ 52 : ℤ) : ℚ) := by norm_num
      rw [e, roundHalfEven_intCast] at this
      exact this
    have u1q : (roundHalfEven (p / 2 ^ (Int.log 2 p - 52)) : ℚ) ≤ 2 ^ (53 : ℕ) := by
      exact_mod_cast u1
    have u2q : (2 : ℚ) ^ (52 : ℕ) ≤ (roundHalfEven (q / 2 ^ (Int.log 2 q - 52)) : ℚ) := by
      exact_mod_cast u2
    have hstep : (2 : ℚ) ^ (53 : ℕ) * 2 ^ (Int.log 2 p - 52) ≤
        2 ^ (52 : ℕ) * 2 ^ (Int.log 2 q - 52) := by
      have e : (2 : ℚ) ^ (53 : ℕ) * 2 ^ (Int.log 2 p - 52) =
          2 ^ (52 : ℕ) * 2 ^ (Int.log 2 p + 1 - 52) := by
        rw [← zpow_natCast, ← zpow_natCast, ← zpow_add₀ (by norm_num),
          ← zpow_add₀ (by norm_num)]
        congr 1; push_cast; ring
      rw [e]
      apply mul_le_mul_of_nonneg_left _ (by positivity)
      exact zpow_le_zpow_right₀ (by norm_num) (by omega)
    calc (roundHalfEven (p / 2 ^ (Int.log 2 p - 52)) : ℚ) * 2 ^ (Int.log 2 p - 52)
        ≤ 2 ^ (53 : ℕ) * 2 ^ (Int.log 2 p - 52) :=
          mul_le_mul_of_nonneg_right u1q (le_of_lt (two_zpow_pos _))
      _ ≤ 2 ^ (52 : ℕ) * 2 ^ (Int.log 2 q - 52) := hstep
      _ ≤ (roundHalfEven (q / 2 ^ (Int.log 2 q - 52)) : ℚ) * 2 ^ (Int.log 2 q - 52) :=
          mul_le_mul_of_nonneg_right u2q (le_of_lt (two_zpow_pos _))
  · rw [heq]
    apply mul_le_mul_of_nonneg_right _ (le_of_lt (two_zpow_pos _))
    have : p / 2 ^ (Int.log 2 q - 52) ≤ q / 2 ^ (Int.log 2 q - 52) :=
      div_le_div_of_nonneg_right h (le_of_lt (two_zpow_pos _))
    exact_mod_cast roundHalfEven_mono this

/-- A number `m * 2 ^ e` with `|m| < 2 ^ 53` is a float64: rounding leaves it unchanged. -/
theorem float64Round_exact (m : ℤ) (e : ℤ) (hm : |m| < 2 ^ 53) :
    float64Round ((m : ℚ) * 2 ^ e) = (m : ℚ) * 2 ^ e := by
  by_cases hm0 : m = 0
  · simp [hm0, float64Round_zero]
  have hq0 : (m : ℚ) * 2 ^ e ≠ 0 :=
    mul_ne_zero (by exact_mod_cast hm0) (ne_of_gt (two_zpow_pos e))
  have habs : |(m : ℚ) * 2 ^ e| = (|m| : ℤ) * 2 ^ e := by
    rw [abs_mul, abs_of_pos (two_zpow_pos e)]; push_cast; rfl
  have hapos : (0 : ℚ) < (|m| : ℤ) * 2 ^ e := by
    rw [← habs]; exact abs_pos.2 hq0
  unfold float64Round
  rw [if_neg hq0, habs]
  obtain ⟨h1, -⟩ := log_bounds hapos
  have hle : Int.log 2 ((|m| : ℤ) * (2 : ℚ) ^ e) - 52 ≤ e := by
    by_contra hcon
    push_neg at hcon
    have hmq : ((|m| : ℤ) : ℚ) < 2 ^ (53 : ℕ) := by exact_mod_cast hm
    have h2 : ((|m| : ℤ) : ℚ) * 2 ^ e < 2 ^ (53 : ℕ) * 2 ^ e :=
      mul_lt_mul_of_pos_right hmq (two_zpow_pos e)
    have h3 : (2 : ℚ) ^ (53 : ℕ) * 2 ^ e ≤ 2 ^ (Int.log 2 ((|m| : ℤ) * (2 : ℚ) ^ e)) := by
      rw [← zpow_natCast, ← zpow_add₀ (by norm_num)]
      exact zpow_le_zpow_right₀ (by norm_num) (by omega)
    linarith
  obtain ⟨d, hd⟩ := Int.eq_ofNat_of_zero_le (sub_nonneg.2 hle)
  have he : e = (Int.log 2 ((|m| : ℤ) * (2 : ℚ) ^ e) - 52) + d := by omega
  generalize Int.log 2 ((|m| : ℤ) * (2 : ℚ) ^ e) - 52 = E at he hle hd ⊢
  have hscaled : (m : ℚ) * 2 ^ e / 2 ^ E = ((m * 2 ^ d : ℤ) : ℚ) := by
    rw [he, zpow_add₀ (by norm_num), zpow_natCast]
    push_cast
    field_simp
    ring
  rw [hscaled, roundHalfEven_intCast, he, zpow_add₀ (by norm_num), zpow_natCast]
  push_cast
  ring

/-- An integer below `2 ^ 53` converts to float64 exactly. -/
theorem float64_exact (n : Nat) (hn : n < 2 ^ 53) : float64 n = n := by
  have h := float64Round_exact (n : ℤ) 0 (by rw [abs_of_nonneg (by positivity)]; exact_mod_cast hn)
  simpa [float64] using h

/-- Dividing an integer below `2 ^ 53` by a power of two is exact. -/
theorem float64Round_natCast_div_pow (n j : Nat) (hn : n < 2 ^ 53) :
    float64Round ((n : ℚ) / 2 ^ j) = (n : ℚ) / 2 ^ j := by
  have h := float64Round_exact (n : ℤ) (-(j : ℤ))
    (by rw [abs_of_nonneg (by positivity)]; exact_mod_cast hn)
  simpa [zpow_neg, div_eq_mul_inv] using h

/-- Every power of two is a float64. -/
theorem float64Round_pow (k : Nat) : float64Round ((2 : ℚ) ^ k) = 2 ^ k := by
  have h := float64Round_exact 1 (k : ℤ) (by norm_num)
  simpa using h

/-- A positive rational rounds to a positive float64. -/
theorem float64Round_pos {q : ℚ} (hq : 0 < q) : 0 < float64Round q := by
  rw [float64Round_of_pos hq]
  obtain ⟨a, -⟩ := scaled_bounds hq
  have := roundHalfEven_mono a
  have e : ((2 : ℚ) ^ (52 : ℕ)) = (((2 : ℤ) ^ 52 : ℤ) : ℚ) := by norm_num
  rw [e, roundHalfEven_intCast] at this
  have hpos : (0 : ℚ) < (roundHalfEven (q / 2 ^ (Int.log 2 q - 52)) : ℚ) := by
    have : (0 : ℤ) < roundHalfEven (q / 2 ^ (Int.log 2 q - 52)) := by omega
    exact_mod_cast this
  exact mul_pos hpos (two_zpow_pos _)

/-- The square root of a power of four is the power of two, exactly. -/
theorem mathSqrt_four_pow (k : Nat) : mathSqrt ((4 : ℚ) ^ k) = 2 ^ k := by
  have h4 : (4 : ℚ) ^ k = (2 : ℚ) ^ ((2 * k : ℕ) : ℤ) := by
    rw [zpow_natCast, pow_mul]; norm_num
  have hlog : Int.log 2 ((4 : ℚ) ^ k) = ((2 * k : ℕ) : ℤ) := by
    rw [h4]
    have := Int.log_zpow (R := ℚ) (b := 2) (by decide) ((2 * k : ℕ) : ℤ)
    simpa using this
  have hpos : ¬ (4 : ℚ) ^ k ≤ 0 := not_le.2 (by positivity)
  unfold mathSqrt
  rw [if_neg hpos, hlog]
  have hhalf : ((2 * k : ℕ) : ℤ) / 2 = k := by push_cast; omega
  rw [hhalf]
  have hw : (4 : ℚ) ^ k / ((2 : ℚ) ^ ((k : ℤ) - 52) * 2 ^ ((k : ℤ) - 52)) = ((2 ^ 52 * 2 ^ 52 : ℕ) : ℚ) := by
    rw [zpow_sub₀ (by norm_num), zpow_natCast]
    have : (4 : ℚ) ^ k = 2 ^ k * 2 ^ k := by rw [← mul_pow]; norm_num
    rw [this]
    have h2 : (2 : ℚ) ^ k ≠ 0 := by positivity
    field_simp
    norm_num
  simp only [hw, Nat.floor_natCast, Nat.sqrt_eq]
  have hlt : (((2 ^ 52 * 2 ^ 52 : ℕ) : ℚ)) < ((2 ^ 52 : ℕ) : ℚ) * ((2 ^ 52 : ℕ) : ℚ) + ((2 ^ 52 : ℕ) : ℚ) + 1 / 4 := by
    norm_num
  rw [if_pos hlt, zpow_sub₀ (by norm_num), zpow_natCast]
  norm_num
  ring

/-- The value `math.Pow(math.Pow(2, y), 2)` is `4 ^ y`. -/
theorem mathPow_sq (y : Nat) : mathPow (mathPow 2 y) 2 = (4 : ℚ) ^ y := by
  unfold mathPow
  rw [← pow_mul, mul_comm, pow_mul]
  norm_num

/-- Converting the float64 `4 ^ y` to `int` gives `4 ^ y`. -/
theorem intOfFloat64_four_pow (y : Nat) : intOfFloat64 ((4 : ℚ) ^ y) = 4 ^ y := by
  unfold intOfFloat64
  have : ((4 : ℚ) ^ y) = ((4 ^ y : ℕ) : ℚ) := by push_cast; rfl
  rw [this, Nat.floor_natCast]

/-- The loop entered at `y` returns `4 ^ k` for the first `k ≥ y` with `x < 4 ^ k`. -/
theorem getBlockCountLoop_eq (x : ℚ) (k : Nat) : ∀ y : Nat, y ≤ k →
    (∀ j, y ≤ j → j < k → (4 : ℚ) ^ j ≤ x) → x < (4 : ℚ) ^ k →
    getBlockCountLoop x y = 4 ^ k := by
  intro y hy
  induction hy using Nat.decreasingInduction with
  | self =>
    intro _ hx
    rw [getBlockCountLoop, mathPow_sq, if_pos hx, intOfFloat64_four_pow]
  | of_succ n hn ih =>
    intro hlow hx
    rw [getBlockCountLoop, mathPow_sq, if_neg (not_lt.2 (hlow n le_rfl hn))]
    exact ih (fun j h1 h2 => hlow j (by omega) h2) hx

/-- Some power of four exceeds any rational: the loop of `GetBlockCount` ends. -/
theorem exists_four_pow_gt (x : ℚ) : ∃ k : Nat, x < (4 : ℚ) ^ k := by
  refine ⟨⌈x⌉₊, ?_⟩
  have h1 : x ≤ (⌈x⌉₊ : ℚ) := Nat.le_ceil x
  have h2 : (⌈x⌉₊ : ℚ) < (4 : ℚ) ^ ⌈x⌉₊ := by
    have : ⌈x⌉₊ < 4 ^ ⌈x⌉₊ := Nat.lt_pow_self (by decide) _
    exact_mod_cast this
  linarith

/-- The loop returns the least power of four above `x`. -/
theorem getBlockCountLoop_zero_spec (x : ℚ) :
    ∃ k : Nat, getBlockCountLoop x 0 = 4 ^ k ∧ x < (4 : ℚ) ^ k ∧
      ∀ j : Nat, x < (4 : ℚ) ^ j → k ≤ j := by
  classical
  have hex := exists_four_pow_gt x
  refine ⟨Nat.find hex, ?_, Nat.find_spec hex, fun j hj => Nat.find_min' hex hj⟩
  apply getBlockCountLoop_eq x _ 0 (Nat.zero_le _)
  · intro j _ hj
    exact not_lt.1 (Nat.find_min hex hj)
  · exact Nat.find_spec hex

/-- The block count is a power of four. -/
theorem GetBlockCount_is_four_pow (filelen blocklen : Nat) :
    ∃ k : Nat, GetBlockCount filelen blocklen = 4 ^ k := by
  obtain ⟨k, hk, -⟩ := getBlockCountLoop_zero_spec
    (float64Div (float64 filelen) (float64 blocklen))
  exact ⟨k, hk⟩

/-- For `a < 2 ^ 53`, rounding the quotient `a / b` does not move it across a power of four. -/
theorem float64Round_lt_four_pow_iff (a b k : Nat) (ha : a < 2 ^ 53) (hb : 0 < b) :
    float64Round ((a : ℚ) / b) < (4 : ℚ) ^ k ↔ (a : ℚ) / b < (4 : ℚ) ^ k := by
  have hbq : (0 : ℚ) < b := by exact_mod_cast hb
  have h4 : float64Round ((4 : ℚ) ^ k) = (4 : ℚ) ^ k := by
    have := float64Round_pow (2 * k)
    rwa [pow_mul, show ((2 : ℚ) ^ 2) = 4 by norm_num] at this
  constructor
  · intro h
    by_contra hcon
    push_neg at hcon
    have := float64Round_mono_pos (by positivity) hcon
    rw [h4] at this
    linarith
  · intro h
    rcases Nat.eq_zero_or_pos a with h0 | hapos
    · rw [h0]; simp [float64Round_zero]
    have haq : (0 : ℚ) < a := by exact_mod_cast hapos
    have hnat : a < 4 ^ k * b := by
      have : (a : ℚ) < (4 : ℚ) ^ k * b := (div_lt_iff₀ hbq).1 h
      exact_mod_cast this
    have hexact := float64Round_exact (2 ^ 53 - 1) ((2 * k : ℕ) - 53) (by norm_num)
    have hle : (a : ℚ) / b ≤ ((2 ^ 53 - 1 : ℤ) : ℚ) * 2 ^ (((2 * k : ℕ) : ℤ) - 53) := by
      rw [zpow_sub₀ (by norm_num), zpow_natCast, pow_mul, div_le_iff₀ hbq]
      have e1 : (2 : ℚ) ^ (53 : ℤ) = 2 ^ (53 : ℕ) := by norm_num
      rw [e1]
      have hN : (a : ℚ) + 1 ≤ (4 : ℚ) ^ k * b := by exact_mod_cast hnat
      have haq' : (a : ℚ) + 1 ≤ 2 ^ (53 : ℕ) := by exact_mod_cast ha
      have hgoal : (a : ℚ) * 2 ^ (53 : ℕ) ≤ (2 ^ (53 : ℕ) - 1) * ((4 : ℚ) ^ k * b) := by
        nlinarith
      rw [show ((2 : ℚ) ^ 2) = 4 by norm_num]
      push_cast
      rw [mul_div_assoc', div_mul_eq_mul_div, le_div_iff₀ (by norm_num)]
      linarith
    have hmono := float64Round_mono_pos (div_pos haq hbq) hle
    rw [hexact] at hmono
    have hlt : ((2 ^ 53 - 1 : ℤ) : ℚ) * 2 ^ (((2 * k : ℕ) : ℤ) - 53) < (4 : ℚ) ^ k := by
      rw [zpow_sub₀ (by norm_num), zpow_natCast, pow_mul, show ((2 : ℚ) ^ 2) = 4 by norm_num]
      have hpos : (0 : ℚ) < (4 : ℚ) ^ k := by positivity
      rw [mul_div_assoc', div_lt_iff₀ (by norm_num)]
      push_cast
      nlinarith
    exact lt_of_le_of_lt hmono hlt

/-- The binary exponent of a rational bracketed by consecutive powers of two. -/
theorem log_eq_of_bounds {q : ℚ} (z : ℤ) (hq : 0 < q) (h1 : (2 : ℚ) ^ z ≤ q)
    (h2 : q < (2 : ℚ) ^ (z + 1)) : Int.log 2 q = z := by
  have a : z ≤ Int.log 2 q := by
    have := (Int.zpow_le_iff_le_log (b := 2) (by decide) (x := z) hq).1 (by simpa using h1)
    exact this
  have b : Int.log 2 q < z + 1 := by
    have := (Int.lt_zpow_iff_log_lt (b := 2) (by decide) (x := z + 1) hq).1 (by simpa using h2)
    exact this
  omega

/-- Rounding a positive rational whose binary exponent and rounded significand are known. -/
theorem float64Round_eq {q : ℚ} (z m : ℤ) (hq : 0 < q) (h1 : (2 : ℚ) ^ z ≤ q)
    (h2 : q < (2 : ℚ) ^ (z + 1)) (hm : roundHalfEven (q / 2 ^ (z - 52)) = m) :
    float64Round q = (m : ℚ) * 2 ^ (z - 52) := by
  rw [float64Round_of_pos hq, log_eq_of_bounds z hq h1 h2, hm]

/-- A tie is rounded to the even neighbour. -/
theorem roundHalfEven_tie (n : ℤ) :
    roundHalfEven ((n : ℚ) + 1 / 2) = if n % 2 = 0 then n else n + 1 := by
  have hf : ⌊(n : ℚ) + 1 / 2⌋ = n := by
    rw [Int.floor_eq_iff]
    constructor <;> norm_num
  unfold roundHalfEven
  rw [hf]
  norm_num

/-- The integer `2 ^ 53 + 1` is not a float64: it converts to `2 ^ 53`. -/
theorem float64_two_pow_53_succ : float64 (2 ^ 53 + 1) = 2 ^ 53 := by
  unfold float64
  have h := float64Round_eq (q := ((2 ^ 53 + 1 : ℕ) : ℚ)) 53 (2 ^ 52) (by norm_num) (by norm_num)
    (by norm_num) (by
      have e : ((2 ^ 53 + 1 : ℕ) : ℚ) / 2 ^ ((53 : ℤ) - 52) = ((2 ^ 52 : ℤ) : ℚ) + 1 / 2 := by
        norm_num
      rw [e, roundHalfEven_tie]
      norm_num)
  rw [h]
  norm_num

/-- The integer `2 ^ 54 - 1` is not a float64: it converts to `2 ^ 54`. -/
theorem float64_two_pow_54_pred : float64 (2 ^ 54 - 1) = 2 ^ 54 := by
  unfold float64
  have h := float64Round_eq (q := ((2 ^ 54 - 1 : ℕ) : ℚ)) 53 (2 ^ 53) (by norm_num) (by norm_num)
    (by norm_num) (by
      have e : ((2 ^ 54 - 1 : ℕ) : ℚ) / 2 ^ ((53 : ℤ) - 52) = ((2 ^ 53 - 1 : ℤ) : ℚ) + 1 / 2 := by
        norm_num
      rw [e, roundHalfEven_tie]
      norm_num)
  rw [h]
  norm_num

/-- For `a < 2 ^ 53` and any `b > 0`, the float64 quotient computed by `GetBlockCount` lies
below a power of four exactly when the exact ratio does. -/
theorem float64Div_lt_four_pow_iff (a b k : Nat) (ha : a < 2 ^ 53) (hb : 0 < b) :
    float64Div (float64 a) (float64 b) < (4 : ℚ) ^ k ↔ (a : ℚ) / b < (4 : ℚ) ^ k := by
  have hbq : (0 : ℚ) < b := by exact_mod_cast hb
  have hone : (1 : ℚ) ≤ (4 : ℚ) ^ k := one_le_pow₀ (by norm_num)
  unfold float64Div
  rw [float64_exact a ha]
  rcases Nat.lt_or_ge b (2 ^ 53) with hlt | hge
  · rw [float64_exact b hlt]
    exact float64Round_lt_four_pow_iff a b k ha hb
  · have hB : (2 : ℚ) ^ (53 : ℕ) ≤ float64 b := by
      have h := float64Round_mono_pos (p := (2 : ℚ) ^ (53 : ℕ)) (q := (b : ℚ)) (by norm_num)
        (by exact_mod_cast hge)
      rwa [float64Round_pow] at h
    have hBpos : (0 : ℚ) < float64 b := lt_of_lt_of_le (by norm_num) hB
    have haq : (a : ℚ) + 1 ≤ 2 ^ (53 : ℕ) := by exact_mod_cast ha
    have hright : (a : ℚ) / b < (4 : ℚ) ^ k := by
      have hbq' : (2 : ℚ) ^ (53 : ℕ) ≤ b := by exact_mod_cast hge
      have : (a : ℚ) / b < 1 := by rw [div_lt_one hbq]; linarith
      linarith
    have hleft : float64Round ((a : ℚ) / float64 b) < (4 : ℚ) ^ k := by
      rcases Nat.eq_zero_or_pos a with h0 | hapos
      · rw [h0]; simp only [Nat.cast_zero, zero_div, float64Round_zero]; linarith
      have hapq : (0 : ℚ) < a := by exact_mod_cast hapos
      have hexact := float64Round_exact (2 ^ 53 - 1) (-53) (by norm_num)
      have hle : (a : ℚ) / float64 b ≤ ((2 ^ 53 - 1 : ℤ) : ℚ) * 2 ^ (-53 : ℤ) := by
        rw [div_le_iff₀ hBpos]
        have e : ((2 ^ 53 - 1 : ℤ) : ℚ) * 2 ^ (-53 : ℤ) = (2 ^ (53 : ℕ) - 1) / 2 ^ (53 : ℕ) := by
          norm_num
        rw [e, div_mul_eq_mul_div, le_div_iff₀ (by norm_num)]
        nlinarith
      have hmono := float64Round_mono_pos (div_pos hapq hBpos) hle
      rw [hexact] at hmono
      have hlt1 : ((2 ^ 53 - 1 : ℤ) : ℚ) * 2 ^ (-53 : ℤ) < 1 := by norm_num
      exact lt_of_le_of_lt hmono (lt_of_lt_of_le hlt1 hone)
    exact ⟨fun _ => hright, fun _ => hleft⟩

/-- For `filelen < 2 ^ 53` the block count is `4 ^ k` for the least `k` with
`4 ^ k > filelen / blocklen`. -/
theorem GetBlockCount_eq_four_pow (a b k : Nat) (ha : a < 2 ^ 53) (hb : 0 < b)
    (hk : a < 4 ^ k * b) (hmin : ∀ j, j < k → 4 ^ j * b ≤ a) : GetBlockCount a b = 4 ^ k := by
  have hbq : (0 : ℚ) < b := by exact_mod_cast hb
  unfold GetBlockCount
  apply getBlockCountLoop_eq _ k 0 (Nat.zero_le _)
  · intro j _ hj
    by_contra hcon
    push_neg at hcon
    have h1 := (float64Div_lt_four_pow_iff a b j ha hb).1 hcon
    have h2 : (a : ℚ) < (4 : ℚ) ^ j * b := (div_lt_iff₀ hbq).1 h1
    have h3 : a < 4 ^ j * b := by exact_mod_cast h2
    have := hmin j hj
    omega
  · rw [float64Div_lt_four_pow_iff a b k ha hb, div_lt_iff₀ hbq]
    exact_mod_cast hk

/-- For `filelen < 2 ^ 53`: the block count is the least power of four above the exact ratio. -/
theorem GetBlockCount_least (a b : Nat) (ha : a < 2 ^ 53) (hb : 0 < b) :
    ∃ k : Nat, GetBlockCount a b = 4 ^ k ∧ (a : ℚ) / b < (4 : ℚ) ^ k ∧
      ∀ j : Nat, (a : ℚ) / b < (4 : ℚ) ^ j → k ≤ j := by
  obtain ⟨k, hk, hlt, hmin⟩ := getBlockCountLoop_zero_spec
    (float64Div (float64 a) (float64 b))
  refine ⟨k, hk, (float64Div_lt_four_pow_iff a b k ha hb).1 hlt, fun j hj => ?_⟩
  exact hmin j ((float64Div_lt_four_pow_iff a b j ha hb).2 hj)

/-- The side length of a canvas of `4 ^ k` blocks is `2 ^ k`. -/
theorem sideLength_four_pow (k : Nat) : sideLength (4 ^ k) = 2 ^ k := by
  unfold sideLength float64
  have h1 : (((4 ^ k : ℕ)) : ℚ) = (2 : ℚ) ^ (2 * k) := by
    push_cast
    rw [pow_mul]
    norm_num
  have h2 : (2 : ℚ) ^ (2 * k) = (4 : ℚ) ^ k := by
    rw [pow_mul]
    norm_num
  rw [h1, float64Round_pow, h2, mathSqrt_four_pow]
  unfold intOfFloat64
  have h3 : (2 : ℚ) ^ k = ((2 ^ k : ℕ) : ℚ) := by push_cast; rfl
  rw [h3, Nat.floor_natCast]

/-! ## Statistics and the assembler -/

/-- The average of a non-empty block is computed without a panic. -/
theorem GetAverage_ok (block : List Byte) (h : 0 < block.length) :
    ∃ g, GetAverage block = Except.ok g := by
  unfold GetAverage
  rw [if_neg (by omega)]
  exact ⟨_, rfl⟩

/-- Counting a block of `n` copies of `v`: the count of `v` grows by `n`, the others stay. -/
theorem observations_replicate (v : Byte) (n : Nat) : ∀ obs : Nat → Nat,
    (List.replicate n v).foldl (fun obs v => Function.update obs v.val (obs v.val + 1)) obs =
      Function.update obs v.val (obs v.val + n) := by
  induction n with
  | zero => intro obs; simp
  | succ n ih =>
    intro obs
    rw [List.replicate_succ, List.foldl_cons, ih]
    funext i
    by_cases hi : i = v.val
    · subst hi
      simp only [Function.update_same]
      omega
    · simp only [Function.update_noteq hi]

/-- The exponent of `1` is `0`, exactly. -/
theorem mathLog2_one (env : MathEnv) : mathLog2 env 1 = 0 := by
  unfold mathLog2
  have h : Int.log 2 (1 : ℚ) = 0 := Int.log_one_right 2
  rw [h]
  simp

/-- Subtracting `1 * log2(1)` from a zero entropy leaves zero, fused or not. -/
theorem float64SubMul_zero (env : MathEnv) : float64SubMul env 0 1 0 = 0 := by
  unfold float64SubMul
  split_ifs <;> simp [float64Round_zero]

/-- A value that does not occur has probability zero. -/
theorem probability_zero (n : Nat) : float64Div (float64 0) (float64 n) = 0 := by
  unfold float64Div float64
  simp [float64Round_zero]

/-- A value that fills the whole block has probability one. -/
theorem probability_one (n : Nat) (hn : 0 < n) : float64Div (float64 n) (float64 n) = 1 := by
  unfold float64Div float64
  have hpos : (0 : ℚ) < float64Round (n : ℚ) := float64Round_pos (by exact_mod_cast hn)
  rw [div_self (ne_of_gt hpos)]
  have := float64Round_pow 0
  simpa using this

/-- A fold whose step keeps zero returns zero. -/
theorem foldl_keeps_zero (f : ℚ → Nat → ℚ) (h : ∀ i, f 0 i = 0) (l : List Nat) :
    l.foldl f 0 = 0 := by
  induction l with
  | nil => rfl
  | cons a l ih => rw [List.foldl_cons, h a, ih]

/-- The encoded entropy of a block of identical bytes is zero. -/
theorem GetEntropy_replicate (env : MathEnv) (v : Byte) (n : Nat) :
    GetEntropy env (List.replicate n v) = 0 := by
  unfold GetEntropy
  simp only [observations_replicate, List.length_replicate]
  rw [foldl_keeps_zero]
  · simp [float64Mul, uint8OfFloat64, float64Round_zero]
  · intro i
    by_cases hi : i = v.val
    · subst hi
      simp only [Function.update_same, Nat.zero_add]
      rcases Nat.eq_zero_or_pos n with h0 | hpos
      · subst h0
        rw [probability_zero, if_neg (lt_irrefl _)]
      · rw [probability_one n hpos, if_pos (by norm_num), mathLog2_one, float64SubMul_zero]
    · simp only [Function.update_noteq hi]
      rw [probability_zero, if_neg (lt_irrefl _)]

/-- Setting a pixel keeps the width. -/
theorem Set_width (img : RGBAImage) (x y : Nat) (c : RGBAColor) :
    (img.Set x y c).width = img.width := by
  unfold RGBAImage.Set
  split_ifs <;> rfl

/-- Setting a pixel keeps the height. -/
theorem Set_height (img : RGBAImage) (x y : Nat) (c : RGBAColor) :
    (img.Set x y c).height = img.height := by
  unfold RGBAImage.Set
  split_ifs <;> rfl

/-- Setting a pixel inside the bounds stores the colour there. -/
theorem Set_pixel_same (img : RGBAImage) (x y : Nat) (c : RGBAColor)
    (hx : x < img.width) (hy : y < img.height) : (img.Set x y c).pixel x y = c := by
  unfold RGBAImage.Set
  rw [if_pos ⟨hx, hy⟩]
  simp

/-- Setting a pixel leaves every other pixel unchanged. -/
theorem Set_pixel_other (img : RGBAImage) (x y x' y' : Nat) (c : RGBAColor)
    (h : (x', y') ≠ (x, y)) : (img.Set x y c).pixel x' y' = img.pixel x' y' := by
  unfold RGBAImage.Set
  split_ifs with hb
  · have hne : ¬ (x' = x ∧ y' = y) := fun hh => h (by rw [hh.1, hh.2])
    simp only [hne, if_false]
  · rfl

/-- The loop of `AnalyzeData` on a canvas of `4 ^ k` blocks and side `2 ^ k`, entered at `i`
with `m` indices left: it ends without a failure, keeps the bounds, stores the colour of
every remaining index at its cell, and leaves every other pixel as it was. -/
theorem analyzeLoop_spec (env : MathEnv) (data : List Byte) (k : Nat) :
    ∀ (m i : Nat) (img : RGBAImage), i + m = 4 ^ k → img.width = 2 ^ k → img.height = 2 ^ k →
    ∃ out, analyzeLoop env data 16 (4 ^ k) (2 ^ k) i img = Except.ok out ∧
      out.width = 2 ^ k ∧ out.height = 2 ^ k ∧
      (∀ j, i ≤ j → j < 4 ^ k →
        out.pixel (HilbertMapD2XY (2 ^ k) j).1 (HilbertMapD2XY (2 ^ k) j).2 =
          blockColor env data j) ∧
      (∀ x y, (∀ j, i ≤ j → j < 4 ^ k → HilbertMapD2XY (2 ^ k) j ≠ (x, y)) →
        out.pixel x y = img.pixel x y) := by
  intro m
  induction m with
  | zero =>
    intro i img hi hw hh
    refine ⟨img, ?_, hw, hh, fun j h1 h2 => by omega, fun _ _ _ => rfl⟩
    rw [analyzeLoop, if_neg (by omega)]
  | succ m ih =>
    intro i img hi hw hh
    have hlt : i < 4 ^ k := by omega
    obtain ⟨g, hg⟩ := GetAverage_ok (GetBlock data i 16)
      (GetBlock_length_pos data i 16 (by decide))
    have hcell := hilbertCurve_lt k i
    rw [← HilbertMapD2XY_pow] at hcell
    obtain ⟨out, hout, ow, oh, hpix, hrest⟩ :=
      ih (i + 1)
        (img.Set (HilbertMapD2XY (2 ^ k) i).1 (HilbertMapD2XY (2 ^ k) i).2
          ⟨GetEntropy env (GetBlock data i 16), g, 0, 255⟩)
        (by omega) (by rw [Set_width, hw]) (by rw [Set_height, hh])
    refine ⟨out, ?_, ow, oh, ?_, ?_⟩
    · rw [analyzeLoop, if_pos hlt]
      simp only [hg]
      exact hout
    · intro j h1 h2
      rcases Nat.eq_or_lt_of_le h1 with heq | hgt
      · subst heq
        rw [hrest _ _ (fun j' h1' h2' hcon => by
          rw [HilbertMapD2XY_pow, HilbertMapD2XY_pow] at hcon
          have := hilbertCurve_inj k j' i h2' h2 hcon
          omega)]
        rw [Set_pixel_same _ _ _ _ (by rw [hw]; exact hcell.1) (by rw [hh]; exact hcell.2)]
        unfold blockColor
        rw [hg]
      · exact hpix j hgt h2
    · intro x y hxy
      rw [hrest x y (fun j h1 h2 => hxy j (by omega) h2)]
      exact Set_pixel_other _ _ _ _ _ _ (fun hcon => hxy i le_rfl hlt hcon.symm)

/-- `AnalyzeData` on a non-empty buffer: with block count `4 ^ k` it returns an image of side
`2 ^ k` whose pixel at the cell of every index is the colour of that index's block. -/
theorem AnalyzeData_spec (env : MathEnv) (data : List Byte) (hne : data.length ≠ 0) :
    ∃ k img, GetBlockCount data.length 16 = 4 ^ k ∧
      sideLength (GetBlockCount data.length 16) = 2 ^ k ∧
      AnalyzeData env data = Except.ok img ∧ img.width = 2 ^ k ∧ img.height = 2 ^ k ∧
      ∀ j, j < 4 ^ k →
        img.At (HilbertMapD2XY (2 ^ k) j).1 (HilbertMapD2XY (2 ^ k) j).2 =
          blockColor env data j := by
  obtain ⟨k, hk⟩ := GetBlockCount_is_four_pow data.length 16
  have hs : sideLength (GetBlockCount data.length 16) = 2 ^ k := by
    rw [hk, sideLength_four_pow]
  obtain ⟨out, hout, ow, oh, hpix, -⟩ :=
    analyzeLoop_spec env data k (4 ^ k) 0 (NewRGBA (2 ^ k) (2 ^ k)) (by omega) rfl rfl
  refine ⟨k, out, hk, hs, ?_, ow, oh, fun j hj => ?_⟩
  · unfold AnalyzeData
    simp only [hne, if_false]
    rw [hs, hk]
    exact hout
  · have hcell := hilbertCurve_lt k j
    rw [← HilbertMapD2XY_pow] at hcell
    unfold RGBAImage.At
    rw [if_pos ⟨by rw [ow]; exact hcell.1, by rw [oh]; exact hcell.2⟩]
    exact hpix j (Nat.zero_le _) hj

/-! ## Blocks and averages -/

/-- A block is never longer than the block size. -/
theorem GetBlock_length_le (data : List Byte) (i blocksize : Nat) :
    (GetBlock data i blocksize).length ≤ blocksize := by
  rcases GetBlock_cases data i blocksize with ⟨_, h⟩ | ⟨h1, h2, h⟩ | ⟨h1, h⟩ <;> rw [h]
  · simp
  · rw [List.length_drop]; omega
  · rw [List.length_drop, List.length_take]; omega

/-- The loop of `GetAverage` adds up the byte values. -/
theorem foldl_add_eq_byteSum (block : List Byte) : ∀ acc : Nat,
    block.foldl (fun sum v => sum + v.val) acc = acc + byteSum block := by
  induction block with
  | nil => intro acc; simp [byteSum]
  | cons a l ih =>
    intro acc
    rw [List.foldl_cons, ih]
    simp only [byteSum, List.map_cons, List.sum_cons]
    omega

/-- The byte sum lies between `lo * len` and `hi * len` when every byte lies between
`lo` and `hi`. -/
theorem byteSum_bounds (block : List Byte) (lo hi : Nat)
    (hlo : ∀ v ∈ block, lo ≤ v.val) (hhi : ∀ v ∈ block, v.val ≤ hi) :
    lo * block.length ≤ byteSum block ∧ byteSum block ≤ hi * block.length := by
  induction block with
  | nil => simp [byteSum]
  | cons a l ih =>
    obtain ⟨h1, h2⟩ := ih (fun v hv => hlo v (List.mem_cons_of_mem _ hv))
      (fun v hv => hhi v (List.mem_cons_of_mem _ hv))
    have ha1 := hlo a (List.mem_cons_self _ _)
    have ha2 := hhi a (List.mem_cons_self _ _)
    simp only [byteSum, List.map_cons, List.sum_cons, List.length_cons] at h1 h2 ⊢
    constructor
    · rw [Nat.mul_succ]; omega
    · rw [Nat.mul_succ]; omega

/-- A non-empty block has a smallest and a largest byte. -/
theorem exists_min_max (block : List Byte) (hne : block ≠ []) :
    ∃ a ∈ block, ∃ b ∈ block, ∀ v ∈ block, a.val ≤ v.val ∧ v.val ≤ b.val := by
  induction block with
  | nil => exact absurd rfl hne
  | cons c l ih =>
    by_cases hl : l = []
    · subst hl
      refine ⟨c, List.mem_cons_self _ _, c, List.mem_cons_self _ _, fun v hv => ?_⟩
      rw [List.mem_singleton] at hv
      subst hv
      exact ⟨le_rfl, le_rfl⟩
    · obtain ⟨a, ha, b, hb, hab⟩ := ih hl
      refine ⟨if c.val ≤ a.val then c else a, ?_, if b.val ≤ c.val then c else b, ?_,
        fun v hv => ?_⟩
      · split_ifs
        · exact List.mem_cons_self _ _
        · exact List.mem_cons_of_mem _ ha
      · split_ifs
        · exact List.mem_cons_self _ _
        · exact List.mem_cons_of_mem _ hb
      · rcases List.mem_cons.1 hv with rfl | hv'
        · constructor <;> split_ifs <;> omega
        · obtain ⟨h1, h2⟩ := hab v hv'
          constructor <;> split_ifs <;> omega

/-- The average of a non-empty block is the integer quotient of the byte sum by the
length. -/
theorem GetAverage_eq (block : List Byte) (hne : block ≠ []) :
    GetAverage block = Except.ok (byteSum block / block.length) ∧
      byteSum block / block.length ≤ 255 := by
  have hlen : 0 < block.length := List.length_pos.2 hne
  have hb := (byteSum_bounds block 0 255 (fun _ _ => Nat.zero_le _)
    (fun v _ => Nat.le_of_lt_succ v.isLt)).2
  have hq : byteSum block / block.length ≤ 255 := by
    rw [Nat.div_le_iff_le_mul_add_pred hlen]
    have : 255 * block.length = block.length * 255 := Nat.mul_comm _ _
    omega
  refine ⟨?_, hq⟩
  unfold GetAverage
  rw [if_neg (by omega), foldl_add_eq_byteSum, Nat.zero_add, Nat.mod_eq_of_lt (by omega)]

/-! ## Entropy -/

/-- The value `GetEntropy` returns is the encoding of the entropy its loop computes. -/
theorem GetEntropy_eq_encode (env : MathEnv) (block : List Byte) :
    GetEntropy env block = uint8OfFloat64 (float64Mul (blockEntropy env block) 32) := rfl

/-- The entropy of a block of identical bytes is zero. -/
theorem blockEntropy_replicate (env : MathEnv) (v : Byte) (n : Nat) :
    blockEntropy env (List.replicate n v) = 0 := by
  unfold blockEntropy
  simp only [observations_replicate, List.length_replicate]
  apply foldl_keeps_zero
  intro i
  by_cases hi : i = v.val
  · subst hi
    simp only [Function.update_same, Nat.zero_add]
    rcases Nat.eq_zero_or_pos n with h0 | hpos
    · subst h0
      rw [probability_zero, if_neg (lt_irrefl _)]
    · rw [probability_one n hpos, if_pos (by norm_num), mathLog2_one, float64SubMul_zero]
  · simp only [Function.update_noteq hi]
    rw [probability_zero, if_neg (lt_irrefl _)]

/-- The counting loop of `GetEntropy` counts the occurrences of every value. -/
theorem observations_eq_count (block : List Byte) : ∀ obs : Nat → Nat,
    block.foldl (fun obs v => Function.update obs v.val (obs v.val + 1)) obs =
      fun i => obs i + (block.map (fun v => v.val)).count i := by
  induction block with
  | nil => intro obs; simp
  | cons a l ih =>
    intro obs
    rw [List.foldl_cons, ih]
    funext i
    by_cases hi : i = a.val
    · subst hi
      simp only [Function.update_same, List.map_cons, List.count_cons_self]
      omega
    · simp only [Function.update_noteq hi, List.map_cons]
      rw [List.count_cons_of_ne hi]

/-- One sixteenth is a float64, and it is the probability of a value that occurs once among
sixteen. -/
theorem probability_sixteenth : float64Div (float64 1) (float64 16) = 1 / 16 := by
  have h1 : float64 1 = 1 := by
    have := float64_exact 1 (by norm_num)
    exact_mod_cast this
  have h16 : float64 16 = 16 := by
    have := float64_exact 16 (by norm_num)
    exact_mod_cast this
  rw [h1, h16]
  unfold float64Div
  have := float64Round_exact 1 (-4) (by norm_num)
  norm_num at this ⊢
  exact this

/-- The logarithm of one sixteenth is `-4`, exactly. -/
theorem mathLog2_sixteenth (env : MathEnv) : mathLog2 env (1 / 16) = -4 := by
  have hlog : Int.log 2 ((1 : ℚ) / 16) = -4 :=
    log_eq_of_bounds (-4) (by norm_num) (by norm_num) (by norm_num)
  unfold mathLog2
  rw [hlog, if_pos (by norm_num)]
  norm_num

/-- Subtracting `(1 / 16) * (-4)` from an entropy of `m` quarters gives `m + 1` quarters, fused
or not. -/
theorem float64SubMul_quarter (env : MathEnv) (m : Nat) (hm : m + 1 < 2 ^ 53) :
    float64SubMul env ((m : ℚ) / 4) (1 / 16) (-4) = ((m + 1 : ℕ) : ℚ) / 4 := by
  have hprod : float64Round ((1 : ℚ) / 16 * -4) = -(1 / 4) := by
    have := float64Round_exact (-1) (-2) (by norm_num)
    norm_num at this ⊢
    exact this
  have hsum : float64Round (((m + 1 : ℕ) : ℚ) / 4) = ((m + 1 : ℕ) : ℚ) / 4 := by
    have := float64Round_natCast_div_pow (m + 1) 2 hm
    norm_num at this ⊢
    exact this
  unfold float64SubMul
  split_ifs
  · have e : (m : ℚ) / 4 - 1 / 16 * -4 = ((m + 1 : ℕ) : ℚ) / 4 := by push_cast; ring
    rw [e, hsum]
  · rw [hprod]
    have e : (m : ℚ) / 4 - -(1 / 4) = ((m + 1 : ℕ) : ℚ) / 4 := by push_cast; ring
    rw [e, hsum]

/-- The entropy loop over values that occur at most once in a sixteen-byte block adds one
quarter for every value that occurs. -/
theorem foldl_quarters (env : MathEnv) (c : Nat → Nat) (l : List Nat) :
    ∀ m : Nat, m + l.length < 2 ^ 53 → (∀ i ∈ l, c i ≤ 1) →
    l.foldl
      (fun entropy i =>
        if float64Div (float64 (c i)) (float64 16) > 0 then
          float64SubMul env entropy (float64Div (float64 (c i)) (float64 16))
            (mathLog2 env (float64Div (float64 (c i)) (float64 16)))
        else entropy)
      ((m : ℚ) / 4) =
    ((m + l.countP (fun i => decide (c i = 1)) : ℕ) : ℚ) / 4 := by
  induction l with
  | nil => intro m _ _; simp
  | cons a l ih =>
    intro m hm hc
    rw [List.length_cons] at hm
    have ha := hc a (List.mem_cons_self _ _)
    have hl : ∀ i ∈ l, c i ≤ 1 := fun i hi => hc i (List.mem_cons_of_mem _ hi)
    rw [List.foldl_cons]
    rcases (by omega : c a = 0 ∨ c a = 1) with h0 | h1
    · rw [h0, probability_zero, if_neg (lt_irrefl _), ih m (by omega) hl]
      rw [List.countP_cons_of_neg]
      simp [h0]
    · rw [h1, probability_sixteenth, if_pos (by norm_num), mathLog2_sixteenth,
        float64SubMul_quarter env m (by omega), ih (m + 1) (by omega) hl]
      rw [List.countP_cons_of_pos]
      · congr 2
        omega
      · simp [h1]

/-- Among the numbers below `n`, those that occur in a duplicate-free list of numbers below
`n` are as many as the list is long. -/
theorem countP_range_count (vals : List Nat) (n : Nat) (hnd : vals.Nodup)
    (hlt : ∀ i ∈ vals, i < n) :
    (List.range n).countP (fun i => decide (vals.count i = 1)) = vals.length := by
  rw [List.countP_eq_length_filter]
  apply List.Perm.length_eq
  rw [List.perm_ext_iff_of_nodup ((List.nodup_range n).filter _) hnd]
  intro i
  rw [List.mem_filter, List.mem_range, decide_eq_true_eq]
  constructor
  · rintro ⟨-, hc⟩
    exact List.count_pos_iff.1 (by omega)
  · intro hi
    exact ⟨hlt i hi, List.count_eq_one_of_mem hnd hi⟩

/-- The entropy of sixteen pairwise distinct bytes is `4`. -/
theorem blockEntropy_distinct (env : MathEnv) (block : List Byte) (hlen : block.length = 16)
    (hnd : block.Nodup) : blockEntropy env block = 4 := by
  have hvals : (block.map (fun v => v.val)).Nodup :=
    hnd.map (fun a b h => Fin.ext h)
  have hvlt : ∀ i ∈ block.map (fun v => v.val), i < 256 := by
    intro i hi
    obtain ⟨v, -, rfl⟩ := List.mem_map.1 hi
    exact v.isLt
  unfold blockEntropy
  simp only [observations_eq_count, Nat.zero_add, hlen]
  have h := foldl_quarters env (fun i => (block.map (fun v => v.val)).count i) (List.range 256)
    0 (by rw [List.length_range]; norm_num)
    (fun i _ => by
      dsimp only
      by_cases hi : i ∈ block.map (fun v => v.val)
      · exact le_of_eq (List.count_eq_one_of_mem hvals hi)
      · rw [List.count_eq_zero_of_not_mem hi]; exact Nat.zero_le _)
  rw [countP_range_count _ 256 hvals hvlt, List.length_map, hlen] at h
  simp only [Nat.cast_zero, zero_div, Nat.zero_add] at h
  rw [h]
  norm_num

/-- The encoding of the entropy `4` is `128`. -/
theorem encode_four : uint8OfFloat64 (float64Mul 4 32) = 128 := by
  unfold float64Mul uint8OfFloat64
  have h := float64Round_pow 7
  have e : (4 : ℚ) * 32 = 2 ^ 7 := by norm_num
  rw [e, h]
  have e2 : ((2 : ℚ) ^ 7) = ((128 : ℕ) : ℚ) := by norm_num
  rw [e2, Nat.floor_natCast]

/-! ## The blocks cover the file -/

/-- Rounding to float64 commutes with scaling by a power of two. -/
theorem float64Round_mul_two_zpow {q : ℚ} (hq : 0 < q) (m : ℤ) :
    float64Round (q * 2 ^ m) = float64Round q * 2 ^ m := by
  have hm := two_zpow_pos m
  obtain ⟨h1, h2⟩ := log_bounds hq
  have hlog : Int.log 2 (q * 2 ^ m) = Int.log 2 q + m := by
    apply log_eq_of_bounds _ (mul_pos hq hm)
    · rw [zpow_add₀ (by norm_num)]
      exact mul_le_mul_of_nonneg_right h1 (le_of_lt hm)
    · have e : Int.log 2 q + m + 1 = (Int.log 2 q + 1) + m := by ring
      rw [e, zpow_add₀ (by norm_num)]
      exact mul_lt_mul_of_pos_right h2 hm
  rw [float64Round_of_pos (mul_pos hq hm), float64Round_of_pos hq, hlog]
  have e1 : Int.log 2 q + m - 52 = (Int.log 2 q - 52) + m := by ring
  rw [e1, zpow_add₀ (by norm_num)]
  have e2 : q * 2 ^ m / (2 ^ (Int.log 2 q - 52) * 2 ^ m) = q / 2 ^ (Int.log 2 q - 52) := by
    field_simp
    ring
  rw [e2]
  ring

/-- The block count times the block size exceeds the file length: whatever the rounding,
the float64 quotient is at least a power of four whenever the exact ratio is. -/
theorem GetBlockCount_mul_gt (a b : Nat) (hb : 0 < b) : a < GetBlockCount a b * b := by
  obtain ⟨k, hk, hlt, -⟩ := getBlockCountLoop_zero_spec (float64Div (float64 a) (float64 b))
  have hk' : GetBlockCount a b = 4 ^ k := hk
  rw [hk']
  by_contra hcon
  push_neg at hcon
  have hbq : (0 : ℚ) < b := by exact_mod_cast hb
  have h4 : (0 : ℚ) < (4 : ℚ) ^ k := by positivity
  have hfb : (0 : ℚ) < float64 b := float64Round_pos hbq
  have h4z : (4 : ℚ) ^ k = (2 : ℚ) ^ ((2 * k : ℕ) : ℤ) := by
    rw [zpow_natCast, pow_mul]; norm_num
  have hscale : float64Round ((b : ℚ) * (4 : ℚ) ^ k) = float64 b * (4 : ℚ) ^ k := by
    rw [h4z]
    exact float64Round_mul_two_zpow hbq _
  have hle : (b : ℚ) * (4 : ℚ) ^ k ≤ (a : ℚ) := by
    have : ((4 ^ k * b : ℕ) : ℚ) ≤ (a : ℚ) := by exact_mod_cast hcon
    push_cast at this
    linarith
  have hfa : float64 b * (4 : ℚ) ^ k ≤ float64 a := by
    have := float64Round_mono_pos (mul_pos hbq h4) hle
    rwa [hscale] at this
  have hquot : (4 : ℚ) ^ k ≤ float64 a / float64 b := by
    rw [le_div_iff₀ hfb]
    linarith
  have hround : (4 : ℚ) ^ k ≤ float64Div (float64 a) (float64 b) := by
    have := float64Round_mono_pos h4 hquot
    have hexact : float64Round ((4 : ℚ) ^ k) = (4 : ℚ) ^ k := by
      have := float64Round_pow (2 * k)
      rwa [pow_mul, show ((2 : ℚ) ^ 2) = 4 by norm_num] at this
    rwa [hexact] at this
  linarith

/-- The first `n` blocks, concatenated, are the first `n * blocksize` bytes of the buffer
followed by zero bytes only; there are no zero bytes while the blocks lie inside the
buffer. -/
theorem blocksConcat_eq (data : List Byte) (blocksize : Nat) (hb : 0 < blocksize) :
    ∀ n : Nat, ∃ z : Nat,
      blocksConcat data blocksize n = data.take (n * blocksize) ++ List.replicate z 0 ∧
      (n * blocksize ≤ data.length → z = 0) := by
  intro n
  induction n with
  | zero => exact ⟨0, by simp [blocksConcat], fun _ => rfl⟩
  | succ n ih =>
    obtain ⟨z, hz, hz0⟩ := ih
    have hstep : blocksConcat data blocksize (n + 1) =
        blocksConcat data blocksize n ++ GetBlock data n blocksize := by
      unfold blocksConcat
      rw [List.range_succ, List.flatMap_append]
      simp
    have hmul : (n + 1) * blocksize = n * blocksize + blocksize := Nat.succ_mul n blocksize
    rw [hstep, hz, hmul]
    rcases GetBlock_cases data n blocksize with ⟨h1, e⟩ | ⟨h1, h2, e⟩ | ⟨h1, e⟩
    · refine ⟨z + blocksize, ?_, fun h => by omega⟩
      rw [e, List.take_of_length_le h1, List.take_of_length_le (by omega), List.append_assoc,
        List.append_replicate_replicate]
    · refine ⟨0, ?_, fun _ => rfl⟩
      rw [e, hz0 (by omega), List.take_of_length_le h2]
      simp
    · refine ⟨0, ?_, fun _ => rfl⟩
      rw [e, hz0 (by omega)]
      simp only [List.replicate_zero, List.append_nil]
      have h := List.take_append_drop (n * blocksize) (data.take (n * blocksize + blocksize))
      rw [List.take_take, Nat.min_eq_left (by omega)] at h
      exact h

/-! ## The block extractor in 64-bit arithmetic -/

/-- A value in `[0, 2 ^ 63)` is not changed by wrapping. -/
theorem wrapInt64_of_lt (z : Int) (h0 : 0 ≤ z) (h1 : z < 2 ^ 63) : wrapInt64 z = z := by
  unfold wrapInt64
  omega

/-- When `i * blocksize + blocksize` fits a 64-bit `int` and the zero block, if it is asked
for, can be allocated, nothing wraps, nothing panics, and `GetBlock` in 64-bit arithmetic
returns the block computed on natural numbers. -/
theorem GetBlockInt64_eq_GetBlock (maxAlloc : Nat) (data : List Byte) (i blocksize : Nat)
    (hfit : i * blocksize + blocksize < 2 ^ 63)
    (hmem : data.length ≤ i * blocksize → blocksize ≤ maxAlloc) :
    GetBlockInt64 maxAlloc data i blocksize = some (GetBlock data i blocksize) := by
  have hoff : wrapInt64 ((i : Int) * (blocksize : Int)) = ((i * blocksize : Nat) : Int) := by
    rw [← Nat.cast_mul]
    exact wrapInt64_of_lt _ (Int.ofNat_nonneg _)
      (by exact_mod_cast (by omega : i * blocksize < 2 ^ 63))
  have hend : wrapInt64 (((i * blocksize : Nat) : Int) + (blocksize : Int)) =
      ((i * blocksize + blocksize : Nat) : Int) := by
    rw [← Nat.cast_add]
    exact wrapInt64_of_lt _ (Int.ofNat_nonneg _) (by exact_mod_cast hfit)
  unfold GetBlockInt64 GetBlock
  simp only [hoff, hend, Int.toNat_ofNat, ge_iff_le, Nat.cast_le, Nat.cast_lt]
  have hb : ¬ ((blocksize : Int) < 0) := by omega
  have ho : ¬ (((i * blocksize : Nat) : Int) < 0) := by omega
  have hlo : ¬ (i * blocksize + blocksize < i * blocksize) := by omega
  by_cases h1 : data.length ≤ i * blocksize
  · have hm : ¬ (maxAlloc < blocksize) := by have := hmem h1; omega
    simp only [h1, if_true, hb, hm, or_self, if_false]
  · by_cases h2 : data.length ≤ i * blocksize + blocksize
    · simp only [h1, h2, if_true, if_false, ho]
    · simp only [h1, h2, if_false, ho, hlo, or_self]

/-- For a file shorter than `2 ^ 53` bytes the blocks of 16 bytes that `GetBlockCount`
counts extend over at most four times the file length. -/
theorem GetBlockCount_sixteen_le (len : Nat) (hlen : len < 2 ^ 53) :
    GetBlockCount len 16 * 16 ≤ 4 * len + 16 := by
  obtain ⟨k, hk, -, hmin⟩ := GetBlockCount_least len 16 hlen (by decide)
  rw [hk]
  cases k with
  | zero => simp
  | succ k =>
    have hge : ¬ ((len : ℚ) / (16 : ℕ) < (4 : ℚ) ^ k) := fun h => by
      have := hmin k h
      omega
    push_neg at hge
    have h16 : (0 : ℚ) < ((16 : ℕ) : ℚ) := by norm_num
    have h2 : (4 : ℚ) ^ k * ((16 : ℕ) : ℚ) ≤ (len : ℚ) := (le_div_iff₀ h16).1 hge
    have h3 : 4 ^ k * 16 ≤ len := by exact_mod_cast h2
    rw [pow_succ]
    omega

/-- Every call `GetBlock(data, i, 16)` that `AnalyzeData` makes on a buffer shorter than
`2 ^ 53` bytes stays clear of 64-bit wraparound: when 16 bytes can be allocated, the machine
returns the block computed on natural numbers. -/
theorem GetBlockInt64_in_AnalyzeData (maxAlloc : Nat) (hmem : 16 ≤ maxAlloc)
    (data : List Byte) (hlen : data.length < 2 ^ 53)
    (i : Nat) (hi : i < GetBlockCount data.length 16) :
    GetBlockInt64 maxAlloc data i ((16 : Nat) : Int) = some (GetBlock data i 16) := by
  have h := GetBlockCount_sixteen_le data.length hlen
  exact GetBlockInt64_eq_GetBlock maxAlloc data i 16 (by omega) (fun _ => hmem)

/-! ## Claims about the Hilbert mapper -/

/-- C1: for `n` a power of two and `d < n * n`, `HilbertMapD2XY n d` is a cell of the
`n × n` grid: both coordinates are below `n`. -/
theorem HilbertMapD2XY_in_grid (n d : Nat) (hn : ∃ k, n = 2 ^ k) (hd : d < n * n) :
    (HilbertMapD2XY n d).1 < n ∧ (HilbertMapD2XY n d).2 < n := by
  obtain ⟨k, rfl⟩ := hn
  rw [HilbertMapD2XY_pow]
  exact hilbertCurve_lt k d

/-- C1 at `n = 4`, `d = 7`. -/
theorem HilbertMapD2XY_in_grid_witness :
    (HilbertMapD2XY 4 7).1 < 4 ∧ (HilbertMapD2XY 4 7).2 < 4 :=
  HilbertMapD2XY_in_grid 4 7 ⟨2, by decide⟩ (by decide)

/-- C2: for `n` a power of two, `d ↦ HilbertMapD2XY n d` is a bijection from the distances
below `n * n` onto the `n × n` grid: it maps into the grid, no two distinct distances
give the same cell, and every cell is the image of exactly one distance. -/
theorem HilbertMapD2XY_bijective (n : Nat) (hn : ∃ k, n = 2 ^ k) :
    (∀ d, d < n * n → (HilbertMapD2XY n d).1 < n ∧ (HilbertMapD2XY n d).2 < n) ∧
    (∀ d₁ d₂, d₁ < n * n → d₂ < n * n →
      HilbertMapD2XY n d₁ = HilbertMapD2XY n d₂ → d₁ = d₂) ∧
    (∀ x y, x < n → y < n → ∃! d, d < n * n ∧ HilbertMapD2XY n d = (x, y)) := by
  obtain ⟨k, rfl⟩ := hn
  rw [two_pow_mul_self]
  refine ⟨fun d _ => ?_, fun d₁ d₂ h₁ h₂ h => ?_, fun x y hx hy => ?_⟩
  · rw [HilbertMapD2XY_pow]
    exact hilbertCurve_lt k d
  · rw [HilbertMapD2XY_pow, HilbertMapD2XY_pow] at h
    exact hilbertCurve_inj k d₁ d₂ h₁ h₂ h
  · obtain ⟨d, hd, hxy⟩ := hilbertCurve_surj k x y hx hy
    refine ⟨d, ⟨hd, by rw [HilbertMapD2XY_pow]; exact hxy⟩, ?_⟩
    rintro d' ⟨hd', hxy'⟩
    rw [HilbertMapD2XY_pow] at hxy'
    exact hilbertCurve_inj k d' d hd' hd (hxy'.trans hxy.symm)

/-- C2 at `n = 4`. -/
theorem HilbertMapD2XY_bijective_witness :
    (∀ d, d < 4 * 4 → (HilbertMapD2XY 4 d).1 < 4 ∧ (HilbertMapD2XY 4 d).2 < 4) ∧
    (∀ d₁ d₂, d₁ < 4 * 4 → d₂ < 4 * 4 →
      HilbertMapD2XY 4 d₁ = HilbertMapD2XY 4 d₂ → d₁ = d₂) ∧
    (∀ x y, x < 4 → y < 4 → ∃! d, d < 4 * 4 ∧ HilbertMapD2XY 4 d = (x, y)) :=
  HilbertMapD2XY_bijective 4 ⟨2, by decide⟩

/-- C10: for `n` a power of two and `d + 1 < n * n`, the cells of the distances `d` and
`d + 1` are adjacent: they differ by exactly one in one coordinate and agree in the
other. -/
theorem HilbertMapD2XY_adjacent (n d : Nat) (hn : ∃ k, n = 2 ^ k) (hd : d + 1 < n * n) :
    gridAdjacent (HilbertMapD2XY n d) (HilbertMapD2XY n (d + 1)) := by
  obtain ⟨k, rfl⟩ := hn
  rw [two_pow_mul_self] at hd
  rw [HilbertMapD2XY_pow, HilbertMapD2XY_pow]
  exact hilbertCurve_adjacent k d hd

/-- C10 at `n = 4`, `d = 7`. -/
theorem HilbertMapD2XY_adjacent_witness :
    gridAdjacent (HilbertMapD2XY 4 7) (HilbertMapD2XY 4 (7 + 1)) :=
  HilbertMapD2XY_adjacent 4 7 ⟨2, by decide⟩ (by decide)

/-! ## Claims about the block extractor -/

/-- C4, as stated, fails in 64-bit arithmetic: on the buffer `[1, 2, 3]` with block size 4
and index `2 ^ 62` the offset `i * blocksize = 2 ^ 64` is not below the length, so the claim
promises four zero bytes; the product wraps to `0` and `GetBlock` returns the tail
`[1, 2, 3]`.  With index `2 ^ 61` the product wraps to `-2 ^ 63` and the slice expression
panics.  And on the empty buffer, index 0, a block size above the allocation limit (here
`2 ^ 48`) makes `make` panic instead of returning zero bytes. -/
theorem GetBlockInt64_wrap_counterexample :
    (0 : Int) ≤ 2 ^ 62 ∧ (0 : Int) < 4 ∧
    ((([1, 2, 3] : List Byte).length : Nat) : Int) ≤ 2 ^ 62 * 4 ∧
    GetBlockInt64 (2 ^ 48) [1, 2, 3] (2 ^ 62) 4 = some [1, 2, 3] ∧
    GetBlockInt64 (2 ^ 48) [1, 2, 3] (2 ^ 62) 4 ≠ some (List.replicate 4 0) ∧
    GetBlockInt64 (2 ^ 48) [1, 2, 3] (2 ^ 61) 4 = none ∧
    GetBlockInt64 (2 ^ 48) [] 0 (2 ^ 48 + 1) = none := by
  decide

/-- C4, amended: for `i ≥ 0` and `blocksize > 0` with `i * blocksize + blocksize < 2 ^ 63`
(the 64-bit arithmetic does not wrap), and `offset = i * blocksize`: when
`offset ≥ len(data)` and `blocksize` bytes can be allocated, the block is `blocksize` zero
bytes; otherwise when `offset + blocksize ≥ len(data)` it is the tail `data[offset:]`;
otherwise it is the slice `data[offset : offset+blocksize]`, which has `blocksize` bytes,
the `j`-th being `data[offset + j]`.  In none of these cases does `GetBlock` panic. -/
theorem GetBlockInt64_spec (maxAlloc : Nat) (data : List Byte) (i blocksize : Nat)
    (hb : 0 < blocksize) (hfit : i * blocksize + blocksize < 2 ^ 63) :
    (data.length ≤ i * blocksize → blocksize ≤ maxAlloc →
      GetBlockInt64 maxAlloc data i blocksize = some (List.replicate blocksize 0)) ∧
    (i * blocksize < data.length → data.length ≤ i * blocksize + blocksize →
      GetBlockInt64 maxAlloc data i blocksize = some (data.drop (i * blocksize))) ∧
    (i * blocksize + blocksize < data.length →
      ∃ block, GetBlockInt64 maxAlloc data i blocksize = some block ∧
        block = (data.take (i * blocksize + blocksize)).drop (i * blocksize) ∧
        block.length = blocksize ∧
        ∀ j, j < blocksize → block[j]? = data[i * blocksize + j]?) := by
  have hpos : 0 < blocksize := hb
  refine ⟨fun h hm => ?_, fun h₁ h₂ => ?_, fun h => ?_⟩
  · rw [GetBlockInt64_eq_GetBlock maxAlloc data i blocksize hfit (fun _ => hm)]
    rcases GetBlock_cases data i blocksize with ⟨_, e⟩ | ⟨h1, _, _⟩ | ⟨h1, _⟩
    · rw [e]
    · omega
    · omega
  · rw [GetBlockInt64_eq_GetBlock maxAlloc data i blocksize hfit (fun h => by omega)]
    rcases GetBlock_cases data i blocksize with ⟨h1, _⟩ | ⟨_, _, e⟩ | ⟨h1, _⟩
    · omega
    · rw [e]
    · omega
  · rw [GetBlockInt64_eq_GetBlock maxAlloc data i blocksize hfit (fun h => by omega)]
    rcases GetBlock_cases data i blocksize with ⟨h1, _⟩ | ⟨_, h1, _⟩ | ⟨_, e⟩
    · omega
    · omega
    · refine ⟨_, rfl, e, ?_, fun j hj => ?_⟩
      · rw [e, List.length_drop, List.length_take]; omega
      · rw [e, List.getElem?_drop, List.getElem?_take]
        rw [if_pos (by omega)]

/-- C4, amended, on a five-byte buffer, block 1 of size 2, with an allocation limit of
`2 ^ 48` bytes. -/
theorem GetBlockInt64_spec_witness :
    (([1, 2, 3, 4, 5] : List Byte).length ≤ 1 * 2 → 2 ≤ 2 ^ 48 →
      GetBlockInt64 (2 ^ 48) [1, 2, 3, 4, 5] (1 : Nat) (2 : Nat) =
        some (List.replicate 2 0)) ∧
    (1 * 2 < ([1, 2, 3, 4, 5] : List Byte).length →
      ([1, 2, 3, 4, 5] : List Byte).length ≤ 1 * 2 + 2 →
      GetBlockInt64 (2 ^ 48) [1, 2, 3, 4, 5] (1 : Nat) (2 : Nat) =
        some (([1, 2, 3, 4, 5] : List Byte).drop (1 * 2))) ∧
    (1 * 2 + 2 < ([1, 2, 3, 4, 5] : List Byte).length →
      ∃ block, GetBlockInt64 (2 ^ 48) [1, 2, 3, 4, 5] (1 : Nat) (2 : Nat) = some block ∧
        block = (([1, 2, 3, 4, 5] : List Byte).take (1 * 2 + 2)).drop (1 * 2) ∧
        block.length = 2 ∧
        ∀ j, j < 2 → block[j]? = ([1, 2, 3, 4, 5] : List Byte)[1 * 2 + j]?) :=
  GetBlockInt64_spec (2 ^ 48) [1, 2, 3, 4, 5] 1 2 (by decide) (by decide)

/-! ## Claims about the canvas sizer -/

/-- C3, as stated, fails: for `filelen = 2 ^ 53` and `blocklen = 2 ^ 53 + 1` the exact ratio is
below `1 = 4 ^ 0`, but `float64(blocklen)` rounds to `2 ^ 53`, the float64 quotient is `1.0`,
and `GetBlockCount` returns `4`, which is not `4 ^ k` for the least `k` with
`4 ^ k > filelen / blocklen`. -/
theorem GetBlockCount_rounding_counterexample :
    GetBlockCount (2 ^ 53) (2 ^ 53 + 1) = 4 ∧
    ¬ ∃ k : Nat, GetBlockCount (2 ^ 53) (2 ^ 53 + 1) = 4 ^ k ∧
      (((2 ^ 53 : ℕ) : ℚ) / ((2 ^ 53 + 1 : ℕ) : ℚ) < (4 : ℚ) ^ k) ∧
      ∀ j : Nat, ((2 ^ 53 : ℕ) : ℚ) / ((2 ^ 53 + 1 : ℕ) : ℚ) < (4 : ℚ) ^ j → k ≤ j := by
  have hx : float64Div (float64 (2 ^ 53)) (float64 (2 ^ 53 + 1)) = 1 := by
    have h1 : float64 (2 ^ 53) = 2 ^ 53 := by
      unfold float64
      have := float64Round_pow 53
      exact_mod_cast this
    rw [h1, float64_two_pow_53_succ]
    unfold float64Div
    have := float64Round_pow 0
    norm_num at this ⊢
    exact this
  have hval : GetBlockCount (2 ^ 53) (2 ^ 53 + 1) = 4 := by
    unfold GetBlockCount
    rw [hx]
    have := getBlockCountLoop_eq 1 1 0 (by decide)
      (fun j _ hj => by interval_cases j; norm_num) (by norm_num)
    simpa using this
  refine ⟨hval, ?_⟩
  rintro ⟨k, hk, -, hmin⟩
  have h0 : k ≤ 0 := hmin 0 (by norm_num)
  have hk0 : k = 0 := by omega
  rw [hval, hk0] at hk
  norm_num at hk

/-- C3, amended: for every `filelen < 2 ^ 53` (the lengths float64 holds exactly) and every
`blocklen > 0`, `GetBlockCount` returns `4 ^ k` for the least `k ≥ 0` with
`4 ^ k > filelen / blocklen`, the exact ratio; in particular the result is a power of 4,
`GetBlockCount 10 16 = 1` and `GetBlockCount 17 16 = 4`. -/
theorem GetBlockCount_least_power (filelen blocklen : Nat) (hf : filelen < 2 ^ 53)
    (hb : 0 < blocklen) :
    (∃ k : Nat, GetBlockCount filelen blocklen = 4 ^ k ∧
      ((filelen : ℚ) / (blocklen : ℚ) < (4 : ℚ) ^ k) ∧
      ∀ j : Nat, (filelen : ℚ) / (blocklen : ℚ) < (4 : ℚ) ^ j → k ≤ j) ∧
    GetBlockCount 10 16 = 1 ∧ GetBlockCount 17 16 = 4 := by
  refine ⟨GetBlockCount_least filelen blocklen hf hb, ?_, ?_⟩
  · exact GetBlockCount_eq_four_pow 10 16 0 (by norm_num) (by norm_num) (by norm_num)
      (fun j hj => by omega)
  · exact GetBlockCount_eq_four_pow 17 16 1 (by norm_num) (by norm_num) (by norm_num)
      (fun j hj => by interval_cases j; norm_num)

/-- C3, amended, at `filelen = 17`, `blocklen = 16`. -/
theorem GetBlockCount_least_power_witness :
    (∃ k : Nat, GetBlockCount 17 16 = 4 ^ k ∧
      (((17 : ℕ) : ℚ) / ((16 : ℕ) : ℚ) < (4 : ℚ) ^ k) ∧
      ∀ j : Nat, ((17 : ℕ) : ℚ) / ((16 : ℕ) : ℚ) < (4 : ℚ) ^ j → k ≤ j) ∧
    GetBlockCount 10 16 = 1 ∧ GetBlockCount 17 16 = 4 :=
  GetBlockCount_least_power 17 16 (by norm_num) (by norm_num)

/-- C8: for every non-empty input of length `L`, the geometry of `AnalyzeData`
(`blockcount = GetBlockCount L 16`, `sidelen = int(sqrt(blockcount))`) satisfies
`sidelen * sidelen = blockcount`, and `sidelen` is a power of two. -/
theorem sideLength_sq_eq_blockcount (L : Nat) (_hL : 1 ≤ L) :
    sideLength (GetBlockCount L 16) * sideLength (GetBlockCount L 16) = GetBlockCount L 16 ∧
    ∃ k : Nat, sideLength (GetBlockCount L 16) = 2 ^ k := by
  obtain ⟨k, hk⟩ := GetBlockCount_is_four_pow L 16
  rw [hk, sideLength_four_pow]
  exact ⟨two_pow_mul_self k, k, rfl⟩

/-- C8 at `L = 17`. -/
theorem sideLength_sq_eq_blockcount_witness :
    sideLength (GetBlockCount 17 16) * sideLength (GetBlockCount 17 16) = GetBlockCount 17 16 ∧
    ∃ k : Nat, sideLength (GetBlockCount 17 16) = 2 ^ k :=
  sideLength_sq_eq_blockcount 17 (by decide)

/-- C9, as stated, fails.  For `L = 65` five chunks are needed and `9` is a perfect square
`≥ 5`, but the block count is `16`.  For `L = 16` one chunk is needed and `1` is a perfect
square `≥ 1`, but the block count is `4`.  For `L = 2 ^ 54 - 1`, which float64 rounds to
`2 ^ 54`, the block count is `4 ^ 26` although `4 ^ 25` chunks suffice. -/
theorem GetBlockCount_smallest_square_counterexample :
    (GetBlockCount 65 16 = 16 ∧
      ¬ IsLeast {s : ℕ | (∃ m : ℕ, s = m * m) ∧ ⌈((65 : ℕ) : ℚ) / 16⌉₊ ≤ s}
        (GetBlockCount 65 16)) ∧
    (GetBlockCount 16 16 = 4 ∧
      ¬ IsLeast {s : ℕ | (∃ m : ℕ, s = m * m) ∧ ⌈((16 : ℕ) : ℚ) / 16⌉₊ ≤ s}
        (GetBlockCount 16 16)) ∧
    (GetBlockCount (2 ^ 54 - 1) 16 = 4 ^ 26 ∧
      ¬ IsLeast {s : ℕ | (∃ m : ℕ, s = m * m) ∧ ⌈((2 ^ 54 - 1 : ℕ) : ℚ) / 16⌉₊ ≤ s}
        (GetBlockCount (2 ^ 54 - 1) 16)) := by
  have h65 : GetBlockCount 65 16 = 16 :=
    GetBlockCount_eq_four_pow 65 16 2 (by norm_num) (by norm_num) (by norm_num)
      (fun j hj => by interval_cases j <;> norm_num)
  have h16 : GetBlockCount 16 16 = 4 :=
    GetBlockCount_eq_four_pow 16 16 1 (by norm_num) (by norm_num) (by norm_num)
      (fun j hj => by interval_cases j; norm_num)
  have hbig : GetBlockCount (2 ^ 54 - 1) 16 = 4 ^ 26 := by
    unfold GetBlockCount
    have h16f : float64 16 = 16 := by
      have := float64_exact 16 (by norm_num)
      exact_mod_cast this
    have hx : float64Div (float64 (2 ^ 54 - 1)) (float64 16) = (4 : ℚ) ^ 25 := by
      rw [float64_two_pow_54_pred, h16f]
      unfold float64Div
      have := float64Round_pow 50
      norm_num at this ⊢
      exact this
    rw [hx]
    apply getBlockCountLoop_eq _ 26 0 (by decide)
    · intro j _ hj
      exact pow_le_pow_right₀ (by norm_num) (by omega)
    · norm_num
  refine ⟨⟨h65, fun h => ?_⟩, ⟨h16, fun h => ?_⟩, ⟨hbig, fun h => ?_⟩⟩
  · have hmem : (9 : ℕ) ∈ {s : ℕ | (∃ m : ℕ, s = m * m) ∧ ⌈((65 : ℕ) : ℚ) / 16⌉₊ ≤ s} := by
      refine ⟨⟨3, by norm_num⟩, ?_⟩
      rw [Nat.ceil_le]
      norm_num
    have := h.2 hmem
    rw [h65] at this
    omega
  · have hmem : (1 : ℕ) ∈ {s : ℕ | (∃ m : ℕ, s = m * m) ∧ ⌈((16 : ℕ) : ℚ) / 16⌉₊ ≤ s} := by
      refine ⟨⟨1, by norm_num⟩, ?_⟩
      rw [Nat.ceil_le]
      norm_num
    have := h.2 hmem
    rw [h16] at this
    omega
  · have hmem : (4 ^ 25 : ℕ) ∈
        {s : ℕ | (∃ m : ℕ, s = m * m) ∧ ⌈((2 ^ 54 - 1 : ℕ) : ℚ) / 16⌉₊ ≤ s} := by
      refine ⟨⟨2 ^ 25, by norm_num⟩, ?_⟩
      rw [Nat.ceil_le]
      norm_num
    have := h.2 hmem
    rw [hbig] at this
    norm_num at this

/-- C9, amended: for every file length `1 ≤ L < 2 ^ 53` and block size 16, the block count is
the smallest power of four that is strictly greater than `L / 16`, that is, at least
`⌊L / 16⌋ + 1`; it is a perfect square and at least the number `⌈L / 16⌉` of chunks needed
to cover the file. -/
theorem GetBlockCount_smallest_four_pow (L : Nat) (_h1 : 1 ≤ L) (h2 : L < 2 ^ 53) :
    IsLeast {s : ℕ | (∃ k : ℕ, s = 4 ^ k) ∧ L / 16 + 1 ≤ s} (GetBlockCount L 16) ∧
    (∃ m : ℕ, GetBlockCount L 16 = m * m) ∧ ⌈(L : ℚ) / 16⌉₊ ≤ GetBlockCount L 16 := by
  obtain ⟨k, hk, hlt, hmin⟩ := GetBlockCount_least L 16 h2 (by norm_num)
  have hconv : ∀ j : ℕ, ((L : ℚ) / ((16 : ℕ) : ℚ) < (4 : ℚ) ^ j) ↔ L / 16 + 1 ≤ 4 ^ j := by
    intro j
    rw [div_lt_iff₀ (by norm_num)]
    constructor
    · intro h
      have h' : L < 4 ^ j * 16 := by exact_mod_cast h
      have := (Nat.div_lt_iff_lt_mul (by norm_num : 0 < 16)).2 h'
      omega
    · intro h
      have h' : L / 16 < 4 ^ j := by omega
      have := (Nat.div_lt_iff_lt_mul (by norm_num : 0 < 16)).1 h'
      exact_mod_cast this
  refine ⟨⟨⟨⟨k, hk⟩, ?_⟩, ?_⟩, ⟨2 ^ k, by rw [hk, two_pow_mul_self]⟩, ?_⟩
  · rw [hk]
    exact (hconv k).1 hlt
  · rintro s ⟨⟨j, rfl⟩, hs⟩
    rw [hk]
    exact Nat.pow_le_pow_right (by norm_num) (hmin j ((hconv j).2 hs))
  · rw [Nat.ceil_le, hk]
    have : (L : ℚ) / ((16 : ℕ) : ℚ) < (4 : ℚ) ^ k := hlt
    push_cast at this ⊢
    exact le_of_lt this

/-- C9, amended, at `L = 65`. -/
theorem GetBlockCount_smallest_four_pow_witness :
    IsLeast {s : ℕ | (∃ k : ℕ, s = 4 ^ k) ∧ 65 / 16 + 1 ≤ s} (GetBlockCount 65 16) ∧
    (∃ m : ℕ, GetBlockCount 65 16 = m * m) ∧ ⌈((65 : ℕ) : ℚ) / 16⌉₊ ≤ GetBlockCount 65 16 :=
  GetBlockCount_smallest_four_pow 65 (by norm_num) (by norm_num)

/-! ## Claims about the assembler -/

/-- C5: for every non-empty input and every index `i` below the block count, the image
returned by `AnalyzeData` has at the cell `HilbertMapD2XY sidelen i` the colour
`(red = GetEntropy (GetBlock data i 16), green = GetAverage (GetBlock data i 16), blue = 0,
alpha = 255)`; distinct indices have distinct cells, so no index overwrites another. -/
theorem AnalyzeData_pixel_of_block (env : MathEnv) (data : List Byte) (hne : data ≠ []) :
    ∃ img, AnalyzeData env data = Except.ok img ∧
      (∀ i, i < GetBlockCount data.length 16 →
        ∃ green, GetAverage (GetBlock data i 16) = Except.ok green ∧
          img.At (HilbertMapD2XY (sideLength (GetBlockCount data.length 16)) i).1
              (HilbertMapD2XY (sideLength (GetBlockCount data.length 16)) i).2 =
            ⟨GetEntropy env (GetBlock data i 16), green, 0, 255⟩) ∧
      (∀ i j, i < GetBlockCount data.length 16 → j < GetBlockCount data.length 16 → i ≠ j →
        HilbertMapD2XY (sideLength (GetBlockCount data.length 16)) i ≠
          HilbertMapD2XY (sideLength (GetBlockCount data.length 16)) j) := by
  have hlen : data.length ≠ 0 := fun h => hne (List.length_eq_zero.1 h)
  obtain ⟨k, img, hk, hs, himg, -, -, hpix⟩ := AnalyzeData_spec env data hlen
  rw [hs, hk]
  refine ⟨img, himg, fun i hi => ?_, fun i j hi hj hij hcon => ?_⟩
  · obtain ⟨g, hg⟩ := GetAverage_ok (GetBlock data i 16)
      (GetBlock_length_pos data i 16 (by decide))
    refine ⟨g, hg, ?_⟩
    rw [hpix i hi]
    unfold blockColor
    rw [hg]
  · rw [HilbertMapD2XY_pow, HilbertMapD2XY_pow] at hcon
    exact hij (hilbertCurve_inj k i j hi hj hcon)

/-- C5 on a file of 17 zero bytes, with exact logarithms and no fused arithmetic. -/
theorem AnalyzeData_pixel_of_block_witness :
    ∃ img, AnalyzeData ⟨fun _ => 0, false⟩ (List.replicate 17 (0 : Byte)) = Except.ok img ∧
      (∀ i, i < GetBlockCount (List.replicate 17 (0 : Byte)).length 16 →
        ∃ green, GetAverage (GetBlock (List.replicate 17 (0 : Byte)) i 16) = Except.ok green ∧
          img.At
              (HilbertMapD2XY
                (sideLength (GetBlockCount (List.replicate 17 (0 : Byte)).length 16)) i).1
              (HilbertMapD2XY
                (sideLength (GetBlockCount (List.replicate 17 (0 : Byte)).length 16)) i).2 =
            ⟨GetEntropy ⟨fun _ => 0, false⟩ (GetBlock (List.replicate 17 (0 : Byte)) i 16),
              green, 0, 255⟩) ∧
      (∀ i j, i < GetBlockCount (List.replicate 17 (0 : Byte)).length 16 →
        j < GetBlockCount (List.replicate 17 (0 : Byte)).length 16 → i ≠ j →
        HilbertMapD2XY (sideLength (GetBlockCount (List.replicate 17 (0 : Byte)).length 16)) i ≠
          HilbertMapD2XY
            (sideLength (GetBlockCount (List.replicate 17 (0 : Byte)).length 16)) j) :=
  AnalyzeData_pixel_of_block ⟨fun _ => 0, false⟩ (List.replicate 17 (0 : Byte)) (by decide)

/-- C6: `AnalyzeData` returns an error, and no image, exactly when the buffer has length 0,
the error being the empty-file error; for every non-empty buffer it returns an image and no
error (no block is empty, so no division panics). -/
theorem AnalyzeData_error_iff_empty (env : MathEnv) (data : List Byte) :
    ((∃ e, AnalyzeData env data = Except.error e) ↔ data.length = 0) ∧
    (AnalyzeData env data = Except.error Failure.emptyFile ↔ data.length = 0) ∧
    (data.length ≠ 0 → ∃ img, AnalyzeData env data = Except.ok img) := by
  have hempty : data.length = 0 → AnalyzeData env data = Except.error Failure.emptyFile := by
    intro h
    unfold AnalyzeData
    simp only [h, if_true]
  have hok : data.length ≠ 0 → ∃ img, AnalyzeData env data = Except.ok img := by
    intro h
    obtain ⟨k, img, -, -, himg, -⟩ := AnalyzeData_spec env data h
    exact ⟨img, himg⟩
  refine ⟨⟨fun ⟨e, he⟩ => ?_, fun h => ⟨_, hempty h⟩⟩, ⟨fun he => ?_, hempty⟩, hok⟩
  · by_contra h
    obtain ⟨img, himg⟩ := hok h
    rw [himg] at he
    cases he
  · by_contra h
    obtain ⟨img, himg⟩ := hok h
    rw [himg] at he
    cases he

/-- The four cells of the curve of order two. -/
theorem HilbertMapD2XY_two :
    HilbertMapD2XY 2 0 = (0, 0) ∧ HilbertMapD2XY 2 1 = (0, 1) ∧
    HilbertMapD2XY 2 2 = (1, 1) ∧ HilbertMapD2XY 2 3 = (1, 0) := by
  refine ⟨?_, ?_, ?_, ?_⟩ <;> simp [HilbertMapD2XY, hilbertLoop, hilbertStep]

/-- The block count of a 16-byte file is 4: the quotient `16 / 16` is exactly `1`, which the
first candidate `1` does not exceed. -/
theorem GetBlockCount_sixteen_bytes :
    GetBlockCount (List.replicate 16 (0x41 : Byte)).length 16 = 4 := by
  rw [List.length_replicate]
  exact GetBlockCount_eq_four_pow 16 16 1 (by norm_num) (by norm_num) (by norm_num)
    (fun j hj => by interval_cases j; norm_num)

/-- C7, as stated, fails: for 16 bytes `0x41` the quotient `16 / 16` is exactly `1`, the test
`val > x` fails for `val = 1`, so the block count is `4` and the side length `2`, not `1`
and `1`, and the image is not `1 × 1`. -/
theorem AnalyzeData_sixteen_bytes_counterexample :
    GetBlockCount (List.replicate 16 (0x41 : Byte)).length 16 = 4 ∧
    sideLength (GetBlockCount (List.replicate 16 (0x41 : Byte)).length 16) = 2 ∧
    ¬ ∃ env img, AnalyzeData env (List.replicate 16 (0x41 : Byte)) = Except.ok img ∧
      img.width = 1 ∧ img.height = 1 := by
  have hside : sideLength (GetBlockCount (List.replicate 16 (0x41 : Byte)).length 16) = 2 := by
    rw [GetBlockCount_sixteen_bytes]
    exact sideLength_four_pow 1
  refine ⟨GetBlockCount_sixteen_bytes, hside, ?_⟩
  rintro ⟨env, img, himg, hw, -⟩
  obtain ⟨k, img', -, hs, himg', hw', -⟩ :=
    AnalyzeData_spec env (List.replicate 16 (0x41 : Byte)) (by simp)
  rw [himg] at himg'
  cases himg'
  rw [← hs, hside] at hw'
  omega

/-- C7, amended: for the input of 16 bytes all equal to `0x41`, `AnalyzeData` computes
`blockcount = 4` and `sidelen = 2` and returns a `2 × 2` image whose pixel at `(0, 0)` is
`(red = 0, green = 65, blue = 0, alpha = 255)`; the other three pixels, of the zero blocks
1 to 3, are `(0, 0, 0, 255)`. -/
theorem AnalyzeData_sixteen_bytes_image (env : MathEnv) :
    GetBlockCount (List.replicate 16 (0x41 : Byte)).length 16 = 4 ∧
    sideLength (GetBlockCount (List.replicate 16 (0x41 : Byte)).length 16) = 2 ∧
    ∃ img, AnalyzeData env (List.replicate 16 (0x41 : Byte)) = Except.ok img ∧
      img.width = 2 ∧ img.height = 2 ∧
      img.At 0 0 = ⟨0, 65, 0, 255⟩ ∧ img.At 0 1 = ⟨0, 0, 0, 255⟩ ∧
      img.At 1 1 = ⟨0, 0, 0, 255⟩ ∧ img.At 1 0 = ⟨0, 0, 0, 255⟩ := by
  have hcount := GetBlockCount_sixteen_bytes
  obtain ⟨k, img, hk, hs, himg, hw, hh, hpix⟩ :=
    AnalyzeData_spec env (List.replicate 16 (0x41 : Byte)) (by simp)
  have hk1 : k = 1 := by
    have h4 : 4 ^ k = 4 ^ 1 := by rw [← hk, hcount, pow_one]
    exact Nat.pow_right_injective (by norm_num : 2 ≤ 4) h4
  subst hk1
  obtain ⟨c0, c1, c2, c3⟩ := HilbertMapD2XY_two
  have b0 : GetBlock (List.replicate 16 (0x41 : Byte)) 0 16 = List.replicate 16 0x41 := by
    decide
  have bz : ∀ j, 1 ≤ j → GetBlock (List.replicate 16 (0x41 : Byte)) j 16 =
      List.replicate 16 0 := by
    intro j hj
    unfold GetBlock
    rw [if_pos (by rw [List.length_replicate]; omega)]
  have a0 : GetAverage (List.replicate 16 (0x41 : Byte)) = Except.ok 65 := by
    rfl
  have az : GetAverage (List.replicate 16 (0 : Byte)) = Except.ok 0 := by
    rfl
  have col0 : blockColor env (List.replicate 16 (0x41 : Byte)) 0 = ⟨0, 65, 0, 255⟩ := by
    unfold blockColor
    rw [b0, a0, GetEntropy_replicate]
  have colz : ∀ j, 1 ≤ j → blockColor env (List.replicate 16 (0x41 : Byte)) j =
      ⟨0, 0, 0, 255⟩ := by
    intro j hj
    unfold blockColor
    rw [bz j hj, az, GetEntropy_replicate]
  have p0 := hpix 0 (by norm_num)
  have p1 := hpix 1 (by norm_num)
  have p2 := hpix 2 (by norm_num)
  have p3 := hpix 3 (by norm_num)
  rw [pow_one] at p0 p1 p2 p3 hs hw hh
  rw [c0, col0] at p0
  rw [c1, colz 1 (by norm_num)] at p1
  rw [c2, colz 2 (by norm_num)] at p2
  rw [c3, colz 3 (by norm_num)] at p3
  exact ⟨hcount, hs, img, himg, hw, hh, p0, p1, p2, p3⟩

/-! ## Claims about block boundaries and the average -/

/-- C11, as stated, fails: on the four-byte buffer `[1, 2, 3, 4]` block 1 of size 2 ends
precisely at the end of the buffer, and `GetBlock` returns `[3, 4]`, both bytes, not a block
of length `2 - 1`. -/
theorem GetBlock_last_block_counterexample :
    1 * 2 + 2 = ([1, 2, 3, 4] : List Byte).length ∧
    GetBlock [1, 2, 3, 4] 1 2 = [3, 4] ∧
    (GetBlock [1, 2, 3, 4] 1 2).length ≠ 2 - 1 := by
  decide

/-- C11, amended: when the block ends precisely at the end of the buffer
(`i * blocksize + blocksize = len(data)`, `blocksize > 0`), `GetBlock` takes the branch
`offset + blocksize >= len(data)` and returns the tail `data[offset:]`, which is the last
block in full: its length is `blocksize`, it equals the slice
`data[offset : offset+blocksize]`, and its `j`-th byte is `data[offset + j]`. -/
theorem GetBlock_last_block_full (data : List Byte) (i blocksize : Nat) (hb : 0 < blocksize)
    (hend : i * blocksize + blocksize = data.length) :
    GetBlock data i blocksize = data.drop (i * blocksize) ∧
    (GetBlock data i blocksize).length = blocksize ∧
    GetBlock data i blocksize = (data.take (i * blocksize + blocksize)).drop (i * blocksize) ∧
    ∀ j, j < blocksize → (GetBlock data i blocksize)[j]? = data[i * blocksize + j]? := by
  have hg : GetBlock data i blocksize = data.drop (i * blocksize) := by
    rcases GetBlock_cases data i blocksize with ⟨h1, _⟩ | ⟨_, _, e⟩ | ⟨h1, _⟩
    · omega
    · exact e
    · omega
  refine ⟨hg, ?_, ?_, fun j _ => ?_⟩
  · rw [hg, List.length_drop]; omega
  · rw [hg, hend, List.take_length]
  · rw [hg, List.getElem?_drop]

/-- C11, amended, on `[1, 2, 3, 4]`, block 1 of size 2. -/
theorem GetBlock_last_block_full_witness :
    GetBlock [1, 2, 3, 4] 1 2 = ([1, 2, 3, 4] : List Byte).drop (1 * 2) ∧
    (GetBlock [1, 2, 3, 4] 1 2).length = 2 ∧
    GetBlock [1, 2, 3, 4] 1 2 = (([1, 2, 3, 4] : List Byte).take (1 * 2 + 2)).drop (1 * 2) ∧
    ∀ j, j < 2 → (GetBlock [1, 2, 3, 4] 1 2)[j]? = ([1, 2, 3, 4] : List Byte)[1 * 2 + j]? :=
  GetBlock_last_block_full [1, 2, 3, 4] 1 2 (by decide) (by decide)

/-- C12, as stated, fails: the empty buffer is shorter than the block size 16, but its
offset `0` is not below its length `0`, so `GetBlock` returns 16 zero bytes, not the empty
buffer. -/
theorem GetBlock_short_buffer_counterexample :
    ([] : List Byte).length < 16 ∧
    GetBlock [] 0 16 = List.replicate 16 0 ∧
    GetBlock [] 0 16 ≠ [] := by
  decide

/-- C12, amended: for every non-empty buffer with `len(data) < blocksize`,
`GetBlock data 0 blocksize` is exactly the whole buffer: same bytes, same length, no zero
padding. -/
theorem GetBlock_short_buffer (data : List Byte) (blocksize : Nat) (hne : data ≠ [])
    (hlt : data.length < blocksize) :
    GetBlock data 0 blocksize = data ∧ (GetBlock data 0 blocksize).length = data.length := by
  have hlen : 0 < data.length := List.length_pos.2 hne
  have hg : GetBlock data 0 blocksize = data := by
    rcases GetBlock_cases data 0 blocksize with ⟨h1, _⟩ | ⟨_, _, e⟩ | ⟨h1, _⟩
    · omega
    · simpa using e
    · omega
  exact ⟨hg, by rw [hg]⟩

/-- C12, amended, on a three-byte buffer and block size 16. -/
theorem GetBlock_short_buffer_witness :
    GetBlock [7, 8, 9] 0 16 = ([7, 8, 9] : List Byte) ∧
    (GetBlock [7, 8, 9] 0 16).length = ([7, 8, 9] : List Byte).length :=
  GetBlock_short_buffer [7, 8, 9] 16 (by decide) (by decide)

/-- C13: for every non-empty block, `GetAverage` returns the integer quotient of the sum of
the byte values by the length; the quotient is at most 255, so the conversion to `uint8`
does not wrap; and it lies between the smallest and the largest byte of the block. -/
theorem GetAverage_quotient (block : List Byte) (hne : block ≠ []) :
    GetAverage block = Except.ok (byteSum block / block.length) ∧
    byteSum block / block.length ≤ 255 ∧
    byteSum block / block.length % 256 = byteSum block / block.length ∧
    ∃ a ∈ block, ∃ b ∈ block, (∀ v ∈ block, a.val ≤ v.val ∧ v.val ≤ b.val) ∧
      a.val ≤ byteSum block / block.length ∧ byteSum block / block.length ≤ b.val := by
  obtain ⟨havg, hle⟩ := GetAverage_eq block hne
  have hlen : 0 < block.length := List.length_pos.2 hne
  obtain ⟨a, ha, b, hb, hab⟩ := exists_min_max block hne
  obtain ⟨h1, h2⟩ := byteSum_bounds block a.val b.val (fun v hv => (hab v hv).1)
    (fun v hv => (hab v hv).2)
  refine ⟨havg, hle, Nat.mod_eq_of_lt (by omega), a, ha, b, hb, hab, ?_, ?_⟩
  · exact (Nat.le_div_iff_mul_le hlen).2 h1
  · exact Nat.div_le_of_le_mul (by rw [Nat.mul_comm]; exact h2)

/-- C13 on the block `[1, 2, 6]`. -/
theorem GetAverage_quotient_witness :
    GetAverage [1, 2, 6] = Except.ok (byteSum [1, 2, 6] / ([1, 2, 6] : List Byte).length) ∧
    byteSum [1, 2, 6] / ([1, 2, 6] : List Byte).length ≤ 255 ∧
    byteSum [1, 2, 6] / ([1, 2, 6] : List Byte).length % 256 =
      byteSum [1, 2, 6] / ([1, 2, 6] : List Byte).length ∧
    ∃ a ∈ ([1, 2, 6] : List Byte), ∃ b ∈ ([1, 2, 6] : List Byte),
      (∀ v ∈ ([1, 2, 6] : List Byte), a.val ≤ v.val ∧ v.val ≤ b.val) ∧
      a.val ≤ byteSum [1, 2, 6] / ([1, 2, 6] : List Byte).length ∧
      byteSum [1, 2, 6] / ([1, 2, 6] : List Byte).length ≤ b.val :=
  GetAverage_quotient [1, 2, 6] (by decide)

/-- C14: for every byte value `v` and every non-empty block all of whose bytes equal `v`,
`GetAverage` returns `v` exactly. -/
theorem GetAverage_constant (v : Byte) (block : List Byte) (hne : block ≠ [])
    (hall : ∀ b ∈ block, b = v) : GetAverage block = Except.ok v.val := by
  obtain ⟨havg, -⟩ := GetAverage_eq block hne
  have hlen : 0 < block.length := List.length_pos.2 hne
  obtain ⟨h1, h2⟩ := byteSum_bounds block v.val v.val
    (fun b hb => by rw [hall b hb]) (fun b hb => by rw [hall b hb])
  have hsum : byteSum block = v.val * block.length := Nat.le_antisymm h2 h1
  rw [havg, hsum, Nat.mul_div_cancel _ hlen]

/-- C14 on five bytes `0x41`. -/
theorem GetAverage_constant_witness :
    GetAverage (List.replicate 5 (0x41 : Byte)) = Except.ok (0x41 : Byte).val :=
  GetAverage_constant 0x41 (List.replicate 5 0x41) (by simp)
    (fun _ hb => List.eq_of_mem_replicate hb)

/-- C19, as stated, fails in 64-bit arithmetic: on the buffer `[1, 2, 3]` with block size 4
and index `2 ^ 61` the offset wraps to `-2 ^ 63`, both guards fail, and the slice expression
`data[offset : offset+blocksize]` panics: `GetBlock` returns no block at all.  Nor does it
on the empty buffer with a block size above the allocation limit (here `2 ^ 48`), where
`make` panics. -/
theorem GetBlockInt64_panic_counterexample :
    (0 : Int) ≤ 2 ^ 61 ∧ (1 : Int) ≤ 4 ∧
    wrapInt64 (2 ^ 61 * 4) = -2 ^ 63 ∧
    GetBlockInt64 (2 ^ 48) [1, 2, 3] (2 ^ 61) 4 = none ∧
    (¬ ∃ block, GetBlockInt64 (2 ^ 48) [1, 2, 3] (2 ^ 61) 4 = some block ∧
        1 ≤ block.length ∧ block.length ≤ 4) ∧
    ¬ ∃ block, GetBlockInt64 (2 ^ 48) [] 0 (2 ^ 48 + 1) = some block ∧
        1 ≤ block.length ∧ block.length ≤ 2 ^ 48 + 1 := by
  have h : GetBlockInt64 (2 ^ 48) [1, 2, 3] (2 ^ 61) 4 = none := by decide
  have h2 : GetBlockInt64 (2 ^ 48) [] 0 (2 ^ 48 + 1) = none := by decide
  refine ⟨by decide, by decide, by decide, h, ?_, ?_⟩
  · rintro ⟨block, hblock, -⟩
    rw [h] at hblock
    cases hblock
  · rintro ⟨block, hblock, -⟩
    rw [h2] at hblock
    cases hblock

/-- C19, amended: for `i ≥ 0` and `blocksize ≥ 1` with `i * blocksize + blocksize < 2 ^ 63`
(the 64-bit arithmetic does not wrap) and `blocksize` bytes within the allocation limit,
`GetBlock` does not panic and returns a block of at least one and at most `blocksize` bytes,
so the division by `len(block)` in `GetAverage` is not a division by zero.  On a buffer
shorter than `2 ^ 53` bytes, when 16 bytes can be allocated, every call
`GetBlock(data, j, 16)` with `j < blockcount` that `AnalyzeData` makes is of that kind, and
`AnalyzeData` never fails with that panic. -/
theorem GetBlockInt64_length_bounds (maxAlloc : Nat) (data : List Byte) (i blocksize : Nat)
    (hb : 1 ≤ blocksize) (hfit : i * blocksize + blocksize < 2 ^ 63)
    (hmem : blocksize ≤ maxAlloc) :
    (∃ block, GetBlockInt64 maxAlloc data i blocksize = some block ∧
      1 ≤ block.length ∧ block.length ≤ blocksize ∧
      ∃ g, GetAverage block = Except.ok g) ∧
    (data.length < 2 ^ 53 → 16 ≤ maxAlloc →
      (∀ j, j < GetBlockCount data.length 16 →
        ∃ block, GetBlockInt64 maxAlloc data j ((16 : Nat) : Int) = some block ∧
          block = GetBlock data j 16 ∧ 1 ≤ block.length ∧ block.length ≤ 16 ∧
          ∃ g, GetAverage block = Except.ok g) ∧
      ∀ env, AnalyzeData env data ≠ Except.error Failure.divideByZero) := by
  refine ⟨⟨GetBlock data i blocksize,
    GetBlockInt64_eq_GetBlock maxAlloc data i blocksize hfit (fun _ => hmem),
    GetBlock_length_pos data i blocksize hb, GetBlock_length_le data i blocksize,
    GetAverage_ok _ (GetBlock_length_pos data i blocksize hb)⟩,
    fun hlt h16 => ⟨fun j hj => ?_, fun env hcon => ?_⟩⟩
  · have hpos := GetBlock_length_pos data j 16 (by decide)
    exact ⟨GetBlock data j 16, GetBlockInt64_in_AnalyzeData maxAlloc h16 data hlt j hj, rfl,
      hpos, GetBlock_length_le data j 16, GetAverage_ok _ hpos⟩
  · by_cases hlen : data.length = 0
    · unfold AnalyzeData at hcon
      simp only [hlen, if_true] at hcon
      cases hcon
    · obtain ⟨k, img, -, -, himg, -⟩ := AnalyzeData_spec env data hlen
      rw [himg] at hcon
      cases hcon

/-- C19, amended, on the three-byte buffer `[1, 2, 3]`, index 3 and block size 16, with an
allocation limit of `2 ^ 48` bytes. -/
theorem GetBlockInt64_length_bounds_witness :
    (∃ block, GetBlockInt64 (2 ^ 48) [1, 2, 3] (3 : Nat) (16 : Nat) = some block ∧
      1 ≤ block.length ∧ block.length ≤ 16 ∧
      ∃ g, GetAverage block = Except.ok g) ∧
    (([1, 2, 3] : List Byte).length < 2 ^ 53 → 16 ≤ 2 ^ 48 →
      (∀ j, j < GetBlockCount ([1, 2, 3] : List Byte).length 16 →
        ∃ block, GetBlockInt64 (2 ^ 48) [1, 2, 3] j ((16 : Nat) : Int) = some block ∧
          block = GetBlock [1, 2, 3] j 16 ∧ 1 ≤ block.length ∧ block.length ≤ 16 ∧
          ∃ g, GetAverage block = Except.ok g) ∧
      ∀ env, AnalyzeData env [1, 2, 3] ≠ Except.error Failure.divideByZero) :=
  GetBlockInt64_length_bounds (2 ^ 48) [1, 2, 3] 3 16 (by decide) (by decide) (by decide)

/-! ## Claims about the entropy -/

/-- C15: for every non-empty block all of whose bytes are identical, the entropy computed by
`GetEntropy` is 0 and the encoded value it returns is 0. -/
theorem GetEntropy_constant (env : MathEnv) (v : Byte) (block : List Byte) (_hne : block ≠ [])
    (hall : ∀ b ∈ block, b = v) :
    blockEntropy env block = 0 ∧ GetEntropy env block = 0 := by
  have hrep : block = List.replicate block.length v :=
    List.eq_replicate_iff.2 ⟨rfl, hall⟩
  rw [hrep]
  exact ⟨blockEntropy_replicate env v _, GetEntropy_replicate env v _⟩

/-- C15 on five bytes `0x41`, with exact logarithms and no fused arithmetic. -/
theorem GetEntropy_constant_witness :
    blockEntropy ⟨fun _ => 0, false⟩ (List.replicate 5 (0x41 : Byte)) = 0 ∧
    GetEntropy ⟨fun _ => 0, false⟩ (List.replicate 5 (0x41 : Byte)) = 0 :=
  GetEntropy_constant ⟨fun _ => 0, false⟩ 0x41 (List.replicate 5 0x41) (by simp)
    (fun _ hb => List.eq_of_mem_replicate hb)

/-- C16: for every 16-byte block whose bytes are pairwise distinct, the entropy computed by
`GetEntropy` is `log2(16) = 4` and the encoded value it returns is `floor(4 * 32) = 128`. -/
theorem GetEntropy_distinct (env : MathEnv) (block : List Byte) (hlen : block.length = 16)
    (hnd : block.Nodup) :
    blockEntropy env block = 4 ∧ GetEntropy env block = 128 := by
  have h4 := blockEntropy_distinct env block hlen hnd
  refine ⟨h4, ?_⟩
  rw [GetEntropy_eq_encode, h4]
  exact encode_four

/-- C16 on the bytes `0, 1, …, 15`, with exact logarithms and no fused arithmetic. -/
theorem GetEntropy_distinct_witness :
    blockEntropy ⟨fun _ => 0, false⟩
      ([0, 1, 2, 3, 4, 5, 6, 7, 8, 9, 10, 11, 12, 13, 14, 15] : List Byte) = 4 ∧
    GetEntropy ⟨fun _ => 0, false⟩
      ([0, 1, 2, 3, 4, 5, 6, 7, 8, 9, 10, 11, 12, 13, 14, 15] : List Byte) = 128 :=
  GetEntropy_distinct ⟨fun _ => 0, false⟩
    [0, 1, 2, 3, 4, 5, 6, 7, 8, 9, 10, 11, 12, 13, 14, 15] (by decide) (by decide)

/-! ## Claims about the whole image and the top-level conversion -/

/-- C17: for every non-empty input, every pixel `(x, y)` with `x, y < sidelen` of the image
returned by `AnalyzeData` has been written by some block index, whose colour it holds: no
pixel is left at the zero background value, and every pixel has alpha 255 and blue 0. -/
theorem AnalyzeData_every_pixel_written (env : MathEnv) (data : List Byte) (hne : data ≠ []) :
    ∃ img, AnalyzeData env data = Except.ok img ∧
      img.width = sideLength (GetBlockCount data.length 16) ∧
      img.height = sideLength (GetBlockCount data.length 16) ∧
      ∀ x y, x < sideLength (GetBlockCount data.length 16) →
        y < sideLength (GetBlockCount data.length 16) →
        (∃ i, i < GetBlockCount data.length 16 ∧
          HilbertMapD2XY (sideLength (GetBlockCount data.length 16)) i = (x, y) ∧
          ∃ green, GetAverage (GetBlock data i 16) = Except.ok green ∧
            img.At x y = ⟨GetEntropy env (GetBlock data i 16), green, 0, 255⟩) ∧
        (img.At x y).A = 255 ∧ (img.At x y).B = 0 ∧ img.At x y ≠ ⟨0, 0, 0, 0⟩ := by
  have hlen : data.length ≠ 0 := fun h => hne (List.length_eq_zero.1 h)
  obtain ⟨k, img, hk, hs, himg, hw, hh, hpix⟩ := AnalyzeData_spec env data hlen
  rw [hs, hk]
  refine ⟨img, himg, hw, hh, fun x y hx hy => ?_⟩
  obtain ⟨i, hi, hxy⟩ := hilbertCurve_surj k x y hx hy
  rw [← HilbertMapD2XY_pow] at hxy
  obtain ⟨g, hg⟩ := GetAverage_ok (GetBlock data i 16)
    (GetBlock_length_pos data i 16 (by decide))
  have hcol : img.At x y = ⟨GetEntropy env (GetBlock data i 16), g, 0, 255⟩ := by
    have h := hpix i hi
    rw [hxy] at h
    rw [h]
    unfold blockColor
    rw [hg]
  refine ⟨⟨i, hi, hxy, g, hg, hcol⟩, ?_, ?_, ?_⟩
  · rw [hcol]
  · rw [hcol]
  · rw [hcol]
    intro hcon
    have hA := congrArg RGBAColor.A hcon
    simp at hA

/-- C17 on a file of 17 zero bytes, with exact logarithms and no fused arithmetic. -/
theorem AnalyzeData_every_pixel_written_witness :
    ∃ img, AnalyzeData ⟨fun _ => 0, false⟩ (List.replicate 17 (0 : Byte)) = Except.ok img ∧
      img.width = sideLength (GetBlockCount (List.replicate 17 (0 : Byte)).length 16) ∧
      img.height = sideLength (GetBlockCount (List.replicate 17 (0 : Byte)).length 16) ∧
      ∀ x y, x < sideLength (GetBlockCount (List.replicate 17 (0 : Byte)).length 16) →
        y < sideLength (GetBlockCount (List.replicate 17 (0 : Byte)).length 16) →
        (∃ i, i < GetBlockCount (List.replicate 17 (0 : Byte)).length 16 ∧
          HilbertMapD2XY (sideLength (GetBlockCount (List.replicate 17 (0 : Byte)).length 16)) i =
            (x, y) ∧
          ∃ green, GetAverage (GetBlock (List.replicate 17 (0 : Byte)) i 16) = Except.ok green ∧
            img.At x y =
              ⟨GetEntropy ⟨fun _ => 0, false⟩ (GetBlock (List.replicate 17 (0 : Byte)) i 16),
                green, 0, 255⟩) ∧
        (img.At x y).A = 255 ∧ (img.At x y).B = 0 ∧ img.At x y ≠ ⟨0, 0, 0, 0⟩ :=
  AnalyzeData_every_pixel_written ⟨fun _ => 0, false⟩ (List.replicate 17 (0 : Byte))
    (by decide)

/-- `GenerateBinVis` on a readable empty input file and a fresh output path at which a file
can be created: the output file is created, then the empty-file error is returned. -/
theorem GenerateBinVis_empty_input (env : MathEnv) (pngEncode : RGBAImage → List Byte)
    (fs : FileSystem) (inputfile outputfile : String)
    (hin : fs.files inputfile = some []) (hread : fs.readable inputfile = true)
    (hout : fs.files outputfile = none) (hcreate : fs.creatable outputfile = true) :
    GenerateBinVis env pngEncode fs inputfile outputfile =
      ({ fs with
          files := Function.update fs.files outputfile (some [])
          readable := Function.update fs.readable outputfile true },
        some (RunError.analyze Failure.emptyFile)) := by
  have hne : inputfile ≠ outputfile := by
    intro h
    rw [h, hout] at hin
    cases hin
  have hana : AnalyzeData env [] = Except.error Failure.emptyFile := rfl
  unfold GenerateBinVis osOpenFileExcl ioutilReadFile
  simp only [hout, hcreate, if_true, Function.update_noteq hne, hin, hread, hana]

/-- `GenerateBinVis` with a fresh output path at which no file can be created: the error of
`os.OpenFile` is returned and the file system is unchanged. -/
theorem GenerateBinVis_open_failed (env : MathEnv) (pngEncode : RGBAImage → List Byte)
    (fs : FileSystem) (inputfile outputfile : String)
    (hout : fs.files outputfile = none) (hcreate : fs.creatable outputfile = false) :
    GenerateBinVis env pngEncode fs inputfile outputfile = (fs, some RunError.openFailed) := by
  unfold GenerateBinVis osOpenFileExcl
  simp [hout, hcreate]

/-- `GenerateBinVis` on an unreadable input file and a fresh output path at which a file can
be created: the output file is created, then the error of `ioutil.ReadFile` is returned. -/
theorem GenerateBinVis_read_failed (env : MathEnv) (pngEncode : RGBAImage → List Byte)
    (fs : FileSystem) (inputfile outputfile : String) (data : List Byte)
    (hin : fs.files inputfile = some data) (hread : fs.readable inputfile = false)
    (hout : fs.files outputfile = none) (hcreate : fs.creatable outputfile = true) :
    GenerateBinVis env pngEncode fs inputfile outputfile =
      ({ fs with
          files := Function.update fs.files outputfile (some [])
          readable := Function.update fs.readable outputfile true },
        some RunError.readFailed) := by
  have hne : inputfile ≠ outputfile := by
    intro h
    rw [h, hout] at hin
    cases hin
  unfold GenerateBinVis osOpenFileExcl ioutilReadFile
  simp [hout, hcreate, Function.update_noteq hne, hin, hread]

/-- C18, as stated, fails.  With a readable empty file `in`, no file `out`, and every
non-empty name creatable, `GenerateBinVis` returns the empty-file error, but it has created
`out` before reading the input, so afterwards the output path exists (as an empty file).
With the empty output name, which does not exist either, `os.OpenFile` fails first and the
error returned is not the empty-file error. -/
theorem GenerateBinVis_empty_input_counterexample :
    (GenerateBinVis ⟨fun _ => 0, false⟩ (fun _ => [])
      emptyInputFileSystem "in" "out").2 =
        some (RunError.analyze Failure.emptyFile) ∧
    (GenerateBinVis ⟨fun _ => 0, false⟩ (fun _ => [])
      emptyInputFileSystem "in" "out").1.files "out" = some [] ∧
    (GenerateBinVis ⟨fun _ => 0, false⟩ (fun _ => [])
      emptyInputFileSystem "in" "out").1.files "out" ≠ none ∧
    (GenerateBinVis ⟨fun _ => 0, false⟩ (fun _ => [])
      emptyInputFileSystem "in" "").2 = some RunError.openFailed ∧
    (GenerateBinVis ⟨fun _ => 0, false⟩ (fun _ => [])
      emptyInputFileSystem "in" "").2 ≠ some (RunError.analyze Failure.emptyFile) := by
  have h := GenerateBinVis_empty_input ⟨fun _ => 0, false⟩ (fun _ => [])
    emptyInputFileSystem "in" "out" rfl rfl rfl (by decide)
  have h2 := GenerateBinVis_open_failed ⟨fun _ => 0, false⟩ (fun _ => [])
    emptyInputFileSystem "in" "" rfl (by decide)
  rw [h, h2]
  simp

/-- C18, amended: with the file system as explicit state, let `GenerateBinVis` be invoked
with an input file of length 0 and an output path that does not exist.  When the output file
cannot be created (empty name, missing parent directory, no permission), the error of
`os.OpenFile` is returned and the file system is unchanged.  When it can be created, it is
created before the input is read and it is not removed: the call fails, with the empty-file
error when the input is readable and with the error of `ioutil.ReadFile` when it is not, and
afterwards the output path exists and holds an empty file (no image is written to it). -/
theorem GenerateBinVis_empty_input_leaves_empty_output (env : MathEnv)
    (pngEncode : RGBAImage → List Byte) (fs : FileSystem) (inputfile outputfile : String)
    (hin : fs.files inputfile = some []) (hout : fs.files outputfile = none) :
    (fs.creatable outputfile = false →
      GenerateBinVis env pngEncode fs inputfile outputfile = (fs, some RunError.openFailed)) ∧
    (fs.creatable outputfile = true →
      (GenerateBinVis env pngEncode fs inputfile outputfile).2 =
        some (if fs.readable inputfile = true then RunError.analyze Failure.emptyFile
          else RunError.readFailed) ∧
      (GenerateBinVis env pngEncode fs inputfile outputfile).1.files outputfile = some []) := by
  refine ⟨fun hc => GenerateBinVis_open_failed env pngEncode fs inputfile outputfile hout hc,
    fun hc => ?_⟩
  by_cases hr : fs.readable inputfile = true
  · rw [GenerateBinVis_empty_input env pngEncode fs inputfile outputfile hin hr hout hc]
    exact ⟨by simp [hr], by simp⟩
  · have hr2 : fs.readable inputfile = false := by simpa using hr
    rw [GenerateBinVis_read_failed env pngEncode fs inputfile outputfile [] hin hr2 hout hc]
    exact ⟨by simp [hr2], by simp⟩

/-- C18, amended, on a file system holding only the readable empty file `in`, where every
non-empty name can be created. -/
theorem GenerateBinVis_empty_input_leaves_empty_output_witness :
    (emptyInputFileSystem.creatable "out" = false →
      GenerateBinVis ⟨fun _ => 0, false⟩ (fun _ => []) emptyInputFileSystem "in" "out" =
        (emptyInputFileSystem, some RunError.openFailed)) ∧
    (emptyInputFileSystem.creatable "out" = true →
      (GenerateBinVis ⟨fun _ => 0, false⟩ (fun _ => []) emptyInputFileSystem "in" "out").2 =
        some (if emptyInputFileSystem.readable "in" = true
          then RunError.analyze Failure.emptyFile else RunError.readFailed) ∧
      (GenerateBinVis ⟨fun _ => 0, false⟩ (fun _ => [])
        emptyInputFileSystem "in" "out").1.files "out" = some []) :=
  GenerateBinVis_empty_input_leaves_empty_output ⟨fun _ => 0, false⟩ (fun _ => [])
    emptyInputFileSystem "in" "out" rfl rfl

/-! ## Claims about the coverage of the file -/

/-- C20: for every non-empty buffer and `blocksize > 0`, with
`blockcount = GetBlockCount (len data) blocksize`, the blocks of the indices
`0, …, blockcount - 1`, concatenated, are the buffer followed by zero bytes only;
`blockcount * blocksize > len data`; and every byte `data[j]` is the byte `j % blocksize` of
the block `j / blocksize`, whose index is below `blockcount`. -/
theorem blocks_cover_file (data : List Byte) (blocksize : Nat) (hne : data ≠ [])
    (hb : 0 < blocksize) :
    (∃ z : Nat, blocksConcat data blocksize (GetBlockCount data.length blocksize) =
      data ++ List.replicate z 0) ∧
    data.length < GetBlockCount data.length blocksize * blocksize ∧
    ∀ j, j < data.length → j / blocksize < GetBlockCount data.length blocksize ∧
      (GetBlock data (j / blocksize) blocksize)[j % blocksize]? = data[j]? := by
  have hlen : 0 < data.length := List.length_pos.2 hne
  have hgt := GetBlockCount_mul_gt data.length blocksize hb
  refine ⟨?_, hgt, fun j hj => ?_⟩
  · obtain ⟨z, hz, -⟩ := blocksConcat_eq data blocksize hb
      (GetBlockCount data.length blocksize)
    refine ⟨z, ?_⟩
    rw [hz, List.take_of_length_le (le_of_lt hgt)]
  · have hdm := Nat.div_add_mod j blocksize
    have hmod := Nat.mod_lt j hb
    have hcomm : blocksize * (j / blocksize) = j / blocksize * blocksize := Nat.mul_comm _ _
    constructor
    · by_contra hcon
      push_neg at hcon
      have := Nat.mul_le_mul_right blocksize hcon
      omega
    · rcases GetBlock_cases data (j / blocksize) blocksize with ⟨h1, _⟩ | ⟨_, _, e⟩ | ⟨_, e⟩
      · omega
      · rw [e, List.getElem?_drop]
        congr 1
        omega
      · rw [e, List.getElem?_drop, List.getElem?_take, if_pos (by omega)]
        congr 1
        omega

/-- C20 on a five-byte buffer and block size 2. -/
theorem blocks_cover_file_witness :
    (∃ z : Nat, blocksConcat [1, 2, 3, 4, 5] 2
        (GetBlockCount ([1, 2, 3, 4, 5] : List Byte).length 2) =
      ([1, 2, 3, 4, 5] : List Byte) ++ List.replicate z 0) ∧
    ([1, 2, 3, 4, 5] : List Byte).length <
      GetBlockCount ([1, 2, 3, 4, 5] : List Byte).length 2 * 2 ∧
    ∀ j, j < ([1, 2, 3, 4, 5] : List Byte).length →
      j / 2 < GetBlockCount ([1, 2, 3, 4, 5] : List Byte).length 2 ∧
      (GetBlock [1, 2, 3, 4, 5] (j / 2) 2)[j % 2]? = ([1, 2, 3, 4, 5] : List Byte)[j]? :=
  blocks_cover_file [1, 2, 3, 4, 5] 2 (by decide) (by decide)

end Bingovis
